import Mathlib

/-!
# neoenv: binding environment entries onto a nested record

A shallow embedding of `loader.go` (package `neoenv`).

Go strings are modelled as `List Char` (one `Char` per rune), so that every
definition below is structurally recursive and evaluates in the kernel.
Library behaviour that the package only calls (floating-point parsing and the
Unicode case tables for runes outside ASCII) is collected in `Lib` and taken
as an argument; everything else (`strconv.ParseBool`, `strconv.ParseInt`,
`strconv.ParseUint`, `strings.Split`, `strings.ToUpper`, the two regular
expressions, the settability rule of `reflect`) is modelled concretely.
-/

namespace Neoenv

/-! ## Strings -/

/-- A Go string, one `Char` per rune. -/
abbrev Str := List Char

/-- The class `[A-Z]`. -/
def isUpperAZ (c : Char) : Bool := decide (65 ≤ c.toNat) && decide (c.toNat ≤ 90)

/-- The class `[a-z]`. -/
def isLowerAZ (c : Char) : Bool := decide (97 ≤ c.toNat) && decide (c.toNat ≤ 122)

/-- The class `[0-9]`. -/
def isDigit09 (c : Char) : Bool := decide (48 ≤ c.toNat) && decide (c.toNat ≤ 57)

/-- The class `[a-z0-9]`. -/
def isLowerOrDigit (c : Char) : Bool := isLowerAZ c || isDigit09 c

/-- The class `[A-Za-z0-9]`. -/
def isAlnum (c : Char) : Bool := isUpperAZ c || isLowerAZ c || isDigit09 c

/-- The two failures of package `strconv`: `ErrSyntax` and `ErrRange`. -/
inductive NumErr
  | ErrSyntax
  | ErrRange
  deriving DecidableEq, Repr

/-- Library behaviour used, but not defined, by the package. -/
structure Lib where
  /-- The function `strconv.ParseFloat(s, 64)`: the bits of the float64 read, or the kind
  of failure. -/
  parseFloat : Str → Except NumErr Nat
  /-- The empty string is not a number: `strconv.ParseFloat("", 64)` is a syntax error. -/
  parseFloat_nil : parseFloat [] = .error .ErrSyntax
  /-- The conversion `float32(x)` performed by `reflect.Value.SetFloat` on a float32. -/
  toFloat32 : Nat → Nat
  /-- The function `unicode.ToUpper` on runes outside ASCII. -/
  upperRune : Char → Char
  /-- The function `unicode.ToLower` on runes outside ASCII. -/
  lowerRune : Char → Char
  /-- The function `unicode.IsUpper` on runes outside ASCII. -/
  isUpperRune : Char → Bool

/-- A library instance with identity case tables outside ASCII and a float parser that
reads nothing; it is used to run examples that involve neither. -/
def asciiLib : Lib where
  parseFloat := fun _ => Except.error NumErr.ErrSyntax
  parseFloat_nil := rfl
  toFloat32 := fun b => b
  upperRune := fun c => c
  lowerRune := fun c => c
  isUpperRune := fun _ => false

/-- The function `unicode.ToUpper`. -/
def toUpperRune (L : Lib) (c : Char) : Char :=
  if isLowerAZ c then Char.ofNat (c.toNat - 32)
  else if c.toNat < 128 then c
  else L.upperRune c

/-- The function `unicode.ToLower`. -/
def toLowerRune (L : Lib) (c : Char) : Char :=
  if isUpperAZ c then Char.ofNat (c.toNat + 32)
  else if c.toNat < 128 then c
  else L.lowerRune c

/-- The function `strings.ToUpper`. -/
def ToUpper (L : Lib) (s : Str) : Str := s.map (toUpperRune L)

/-- The function `strings.ToLower`. -/
def ToLower (L : Lib) (s : Str) : Str := s.map (toLowerRune L)

/-! ## normalizeKey -/

/-- The pattern `(.)([A-Z][a-z]+)` anchored at the head of the input: the lengths of
the two groups of the leftmost-first match there, if any. The dot excludes a newline and
the `+` is greedy. -/
def matchFirstCap : Str → Option (Nat × Nat)
  | c :: u :: l :: rest =>
    if c ≠ '\n' ∧ isUpperAZ u = true ∧ isLowerAZ l = true then
      some (1, 2 + (rest.takeWhile isLowerAZ).length)
    else none
  | _ => none

/-- The pattern `([a-z0-9])([A-Z])` anchored at the head of the input. -/
def matchAllCap : Str → Option (Nat × Nat)
  | a :: b :: _ =>
    if isLowerOrDigit a = true ∧ isUpperAZ b = true then some (1, 1) else none
  | _ => none

/-- The call `re.ReplaceAllString(s, "${1}_${2}")` for a pattern with two adjacent groups
that never matches the empty string: the input is scanned from the left, the first
position where the pattern matches is rewritten to group 1, an underscore and group 2,
and the scan resumes after the match. The counter `skip` is the number of runes still
covered by the last match. -/
def replaceAll (matchAt : Str → Option (Nat × Nat)) : Nat → Str → Str
  | _, [] => []
  | skip + 1, _ :: rest => replaceAll matchAt skip rest
  | 0, c :: rest =>
    match matchAt (c :: rest) with
    | some (n1, n2) =>
      ((c :: rest).take n1 ++ '_' :: ((c :: rest).take (n1 + n2)).drop n1)
        ++ replaceAll matchAt (n1 + n2 - 1) rest
    | none => c :: replaceAll matchAt 0 rest

/-- The function `normalizeKey`. -/
def normalizeKey (L : Lib) (str : Str) : Str :=
  let normalizedStr := replaceAll matchFirstCap 0 str
  let normalizedStr := replaceAll matchAllCap 0 normalizedStr
  ToLower L normalizedStr


/-! ## Errors, kinds and values -/

/-- An error value: a `*strconv.NumError` or the result of `fmt.Errorf`. -/
inductive GoError
  | numError (Func : String) (Num : Str) (Err : NumErr)
  | errorf (msg : String)
  deriving DecidableEq, Repr

/-- The kinds of `reflect.Kind` (all but `Invalid`, which no type has). -/
inductive Kind
  | Bool | Int | Int8 | Int16 | Int32 | Int64
  | Uint | Uint8 | Uint16 | Uint32 | Uint64 | Uintptr
  | Float32 | Float64 | Complex64 | Complex128
  | Array | Chan | Func | Interface | Map | Pointer | Slice | String | Struct
  | UnsafePointer
  deriving DecidableEq, Repr

/-- The method `reflect.Kind.String`, as printed by `%s`. -/
def kindName : Kind → String
  | .Bool => "bool" | .Int => "int" | .Int8 => "int8" | .Int16 => "int16"
  | .Int32 => "int32" | .Int64 => "int64"
  | .Uint => "uint" | .Uint8 => "uint8" | .Uint16 => "uint16" | .Uint32 => "uint32"
  | .Uint64 => "uint64" | .Uintptr => "uintptr"
  | .Float32 => "float32" | .Float64 => "float64"
  | .Complex64 => "complex64" | .Complex128 => "complex128"
  | .Array => "array" | .Chan => "chan" | .Func => "func" | .Interface => "interface"
  | .Map => "map" | .Pointer => "ptr" | .Slice => "slice" | .String => "string"
  | .Struct => "struct" | .UnsafePointer => "unsafe.Pointer"

/-- The size in bits of an integer kind; `int` and `uint` are 64 bits wide (a 64-bit
target, where `strconv.IntSize` is 64). -/
def Kind.bits : Kind → Nat
  | .Int8 | .Uint8 => 8
  | .Int16 | .Uint16 => 16
  | .Int32 | .Uint32 => 32
  | _ => 64

/-- The type of a field that is not a record: its kind and, for a slice, the kind of
its elements. -/
inductive LeafType
  | basic (k : Kind)
  | slice (elem : Kind)
  deriving DecidableEq, Repr

/-- The method `Kind()` of a leaf. -/
def LeafType.kind : LeafType → Kind
  | .basic k => k
  | .slice _ => Kind.Slice

/-- A value of a scalar kind; a float is given by its bits. -/
inductive Scalar
  | bool (b : Bool)
  | str (s : Str)
  | int (i : Int)
  | uint (n : Nat)
  | float (bits : Nat)
  deriving DecidableEq, Repr

/-- The content of a leaf field: a scalar, a slice of scalars (the nil slice is the empty
one), or the zero value of a kind the loader never writes. -/
inductive Value
  | scalar (s : Scalar)
  | slice (xs : List Scalar)
  | other
  deriving DecidableEq, Repr

/-- The zero value of a scalar kind, if the kind is one the loader writes. -/
def zeroScalar : Kind → Option Scalar
  | .Bool => some (.bool false)
  | .String => some (.str [])
  | .Int | .Int8 | .Int16 | .Int32 | .Int64 => some (.int 0)
  | .Uint | .Uint8 | .Uint16 | .Uint32 | .Uint64 => some (.uint 0)
  | .Float32 | .Float64 => some (.float 0)
  | _ => none

/-- The zero value of a leaf type, as allocated by `new(T)`. -/
def zeroValue : LeafType → Value
  | .slice _ => .slice []
  | .basic k =>
    match zeroScalar k with
    | some s => .scalar s
    | none => .other

/-- How a call ends: it returns an error value (or nil), or it panics. -/
inductive Completion
  | returned (err : Option GoError)
  | panicked (msg : String)
  deriving DecidableEq, Repr

/-! ## strconv -/

/-- The function `strconv.ParseBool`. -/
def ParseBool (str : Str) : Bool × Option GoError :=
  if str = "1".toList ∨ str = "t".toList ∨ str = "T".toList ∨ str = "TRUE".toList
      ∨ str = "true".toList ∨ str = "True".toList then (true, none)
  else if str = "0".toList ∨ str = "f".toList ∨ str = "F".toList ∨ str = "FALSE".toList
      ∨ str = "false".toList ∨ str = "False".toList then (false, none)
  else (false, some (.numError "ParseBool" str .ErrSyntax))

/-- The largest uint64. -/
def maxUint64 : Nat := 2 ^ 64 - 1

/-- The loop of `strconv.ParseUint(s, 10, 64)` over the bytes of `s`, from the value `n`
read so far: the value returned and the failure, if any. A byte that is not a decimal
digit is a syntax error (a letter is a digit of value 10 or more, which base 10
refuses). The arithmetic is that of uint64. -/
def parseUintLoop : Nat → Str → Nat × Option NumErr
  | n, [] => (n, none)
  | n, c :: cs =>
    if isDigit09 c then
      let d := c.toNat - 48
      if n ≥ maxUint64 / 10 + 1 then (maxUint64, some .ErrRange)
      else
        let n10 := n * 10 % 2 ^ 64
        let n1 := (n10 + d) % 2 ^ 64
        if n1 < n10 ∨ n1 > maxUint64 then (maxUint64, some .ErrRange)
        else parseUintLoop n1 cs
    else (0, some .ErrSyntax)

/-- The function `strconv.ParseUint(s, 10, 64)`, with the kind of its error. -/
def parseUintCore (s : Str) : Nat × Option NumErr :=
  if s = [] then (0, some .ErrSyntax) else parseUintLoop 0 s

/-- The function `strconv.ParseUint(s, 10, 64)`. -/
def ParseUint (s : Str) : Nat × Option GoError :=
  match parseUintCore s with
  | (n, none) => (n, none)
  | (n, some e) => (n, some (.numError "ParseUint" s e))

/-- The conversion of an int64 to the signed integer type of `w` bits (two's complement
wrap-around), as done by `reflect.Value.SetInt`. -/
def wrapInt (w : Nat) (x : Int) : Int := (x + 2 ^ (w - 1)) % 2 ^ w - 2 ^ (w - 1)

/-- The conversion of a uint64 to the unsigned integer type of `w` bits, as done by
`reflect.Value.SetUint`. -/
def wrapUint (w : Nat) (n : Nat) : Nat := n % 2 ^ w

/-- The function `strconv.ParseInt(s, 10, 64)`. -/
def ParseInt (s : Str) : Int × Option GoError :=
  match s with
  | [] => (0, some (.numError "ParseInt" s .ErrSyntax))
  | c :: cs =>
    let neg := decide (c = '-')
    let body := if c = '+' ∨ c = '-' then cs else s
    match parseUintCore body with
    | (_, some .ErrSyntax) => (0, some (.numError "ParseInt" s .ErrSyntax))
    | (un, _) =>
      let cutoff : Nat := 2 ^ 63
      if neg = false ∧ un ≥ cutoff then
        (Int.ofNat (cutoff - 1), some (.numError "ParseInt" s .ErrRange))
      else if neg = true ∧ un > cutoff then
        (- Int.ofNat cutoff, some (.numError "ParseInt" s .ErrRange))
      else
        let n := wrapInt 64 (Int.ofNat un)
        (if neg then wrapInt 64 (- n) else n, none)

/-- The function `strconv.ParseFloat(s, 64)`. -/
def ParseFloat (L : Lib) (s : Str) : Nat × Option GoError :=
  match L.parseFloat s with
  | .ok bits => (bits, none)
  | .error e => (0, some (.numError "ParseFloat" s e))

/-- The function `strings.Split(s, ",")`: the segments between the commas, of which there
is always at least one. -/
def splitComma : Str → List Str
  | [] => [[]]
  | c :: cs =>
    if c = ',' then [] :: splitComma cs
    else
      match splitComma cs with
      | seg :: segs => (c :: seg) :: segs
      | [] => [[c]]


/-! ## setField and parseSlice -/

/-- The check `mustBeAssignable` made by every setter of `reflect.Value`, followed by the
store: a value reached through an unexported field is read-only and the setter panics;
otherwise the field takes the new content. -/
def assign (ro : Bool) (method : String) (old new : Value) : Value × Completion :=
  if ro then
    (old, .panicked ("reflect: reflect.Value." ++ method
      ++ " using value obtained using unexported field"))
  else (new, .returned none)

/-- The loop `for i, item := range items` of `parseSlice`: each item is parsed and stored in
turn, and the first failure is returned. -/
def parseItems (f : Str → Scalar × Option GoError) : List Str → Except GoError (List Scalar)
  | [] => .ok []
  | item :: items =>
    match f item with
    | (_, some err) => .error err
    | (v, none) =>
      match parseItems f items with
      | .error err => .error err
      | .ok vs => .ok (v :: vs)

/-- The function `parseSlice` on a field of slice type with elements of kind `k`: the
content of the field after the call, and how the call ends. The flag `ro` says whether
the field is read-only. -/
def parseSlice (L : Lib) (ro : Bool) (k : Kind) (old : Value) (value : Str) :
    Value × Completion :=
  let items := splitComma value
  let store (r : Except GoError (List Scalar)) : Value × Completion :=
    match r with
    | .error err => (old, .returned (some err))
    | .ok s => assign ro "Set" old (.slice s)
  match k with
  | .String => store (parseItems (fun item => (.str item, none)) items)
  | .Int | .Int8 | .Int16 | .Int32 | .Int64 =>
    store (parseItems (fun item => (.int (wrapInt k.bits (ParseInt item).1), (ParseInt item).2))
      items)
  | .Uint | .Uint8 | .Uint16 | .Uint32 | .Uint64 =>
    store (parseItems
      (fun item => (.uint (wrapUint k.bits (ParseUint item).1), (ParseUint item).2)) items)
  | .Float32 =>
    store (parseItems
      (fun item => (.float (L.toFloat32 (ParseFloat L item).1), (ParseFloat L item).2)) items)
  | .Float64 =>
    store (parseItems (fun item => (.float (ParseFloat L item).1, (ParseFloat L item).2)) items)
  | _ => (old, .returned (some (.errorf ("unsupported slice type " ++ kindName k))))

/-- The function `setField`: the content of the field after the call, and how the call
ends. The flag `ro` says whether the field is read-only. -/
def setField (L : Lib) (ro : Bool) (t : LeafType) (old : Value) (value : Str) :
    Value × Completion :=
  match t with
  | .slice elem => parseSlice L ro elem old value
  | .basic k =>
    match k with
    | .String => assign ro "SetString" old (.scalar (.str value))
    | .Bool =>
      match ParseBool value with
      | (_, some err) => (old, .returned (some err))
      | (v, none) => assign ro "SetBool" old (.scalar (.bool v))
    | .Int | .Int8 | .Int16 | .Int32 | .Int64 =>
      match ParseInt value with
      | (_, some err) => (old, .returned (some err))
      | (v, none) => assign ro "SetInt" old (.scalar (.int (wrapInt k.bits v)))
    | .Uint | .Uint8 | .Uint16 | .Uint32 | .Uint64 =>
      match ParseUint value with
      | (_, some err) => (old, .returned (some err))
      | (v, none) => assign ro "SetUint" old (.scalar (.uint (wrapUint k.bits v)))
    | .Float32 =>
      match ParseFloat L value with
      | (_, some err) => (old, .returned (some err))
      | (v, none) => assign ro "SetFloat" old (.scalar (.float (L.toFloat32 v)))
    | .Float64 =>
      match ParseFloat L value with
      | (_, some err) => (old, .returned (some err))
      | (v, none) => assign ro "SetFloat" old (.scalar (.float v))
    | _ => (old, .returned (some (.errorf ("unsupported type " ++ kindName k))))

/-! ## Records -/

/-- What `parse` reads of a `reflect.StructField`: its name, the value of its `env` tag
(empty when there is none) and whether it is embedded. -/
structure FieldInfo where
  Name : Str
  tag : Str
  Anonymous : Bool
  deriving DecidableEq, Repr

/-- The fields of a record type, in declaration order: each is a leaf or a nested
record. -/
inductive Shape
  | done
  | leaf (f : FieldInfo) (t : LeafType) (rest : Shape)
  | nested (f : FieldInfo) (fields : Shape) (rest : Shape)
  deriving DecidableEq, Repr

/-- The content of a record, field by field. -/
inductive Record
  | done
  | leaf (v : Value) (rest : Record)
  | nested (fields : Record) (rest : Record)
  deriving DecidableEq, Repr

/-- The record allocated by `new(T)`: every leaf holds its zero value. -/
def zeroRecord : Shape → Record
  | .done => .done
  | .leaf _ t rest => .leaf (zeroValue t) (zeroRecord rest)
  | .nested _ fields rest => .nested (zeroRecord fields) (zeroRecord rest)

/-- The type parameter of `Load`: a record type, or any other type, of which `Load` only
prints the name. -/
inductive RootType
  | record (fields : Shape)
  | nonRecord (typeName : String)
  deriving DecidableEq, Repr

/-- The environment of the process: `os.LookupEnv`. -/
abbrev Env := Str → Option Str

/-- The function `os.Getenv`: the empty string when the variable is not set. -/
def osGetenv (env : Env) (k : Str) : Str := (env k).getD []

/-! ## Load and parse -/

/-- The constant `tagKey`. -/
def tagKey : String := "env"

/-- The function `buildKey`. -/
def buildKey (pre key : Str) : Str :=
  if pre = [] then key else pre ++ "__".toList ++ key

/-- The function `getEnv`. -/
def getEnv (L : Lib) (env : Env) (k : Str) : Str := osGetenv env (ToUpper L k)

/-- Whether a field name is exported: its first rune is an upper-case letter. -/
def isExported (L : Lib) (f : FieldInfo) : Bool :=
  match f.Name with
  | [] => false
  | c :: _ => if c.toNat < 128 then isUpperAZ c else L.isUpperRune c

/-- The first lines of the loop body of `parse`: the tag of the field, or its normalized
name when the tag is empty. -/
def tagValue (L : Lib) (f : FieldInfo) : Str :=
  if f.tag = [] then normalizeKey L f.Name else f.tag

/-- The state after a call of `parse`: the content of the record, the names passed to
`os.Getenv` in call order, and how the call ended. -/
structure ParseRun where
  record : Record
  queried : List Str
  exit : Completion
  deriving DecidableEq, Repr

/-- The function `parse` on the fields `v` with content `r`. The flag `sticky` is the
read-only flag that `reflect.Value.Field` passes down from an unexported field that is not
embedded. -/
def parse (L : Lib) (env : Env) : Bool → Str → Shape → Record → ParseRun
  | sticky, pre, .leaf f t rest, .leaf old r =>
    let key := buildKey pre (tagValue L f)
    let v := getEnv L env key
    if v = [] then
      let run := parse L env sticky pre rest r
      ⟨.leaf old run.record, ToUpper L key :: run.queried, run.exit⟩
    else
      let set := setField L (sticky || !isExported L f) t old v
      if set.2 = .returned none then
        let run := parse L env sticky pre rest r
        ⟨.leaf set.1 run.record, ToUpper L key :: run.queried, run.exit⟩
      else ⟨.leaf set.1 r, [ToUpper L key], set.2⟩
  | sticky, pre, .nested f fields rest, .nested sub r =>
    let key := buildKey pre (tagValue L f)
    let inner := parse L env (sticky || (!isExported L f && !f.Anonymous)) key fields sub
    if inner.exit = .returned none then
      let run := parse L env sticky pre rest r
      ⟨.nested inner.record run.record, inner.queried ++ run.queried, run.exit⟩
    else ⟨.nested inner.record r, inner.queried, inner.exit⟩
  | _, _, _, r => ⟨r, [], .returned none⟩

/-- What a call of `Load` gives back: a pointer to a record (or nil) and an error (or nil),
or a panic. -/
inductive LoadResult
  | returned (record : Option Record) (err : Option GoError)
  | panicked (msg : String)
  deriving DecidableEq, Repr

/-- A call of `Load`: the names passed to `os.Getenv` and the result. -/
structure LoadRun where
  queried : List Str
  result : LoadResult
  deriving DecidableEq, Repr

/-- The function `Load`. -/
def Load (L : Lib) (env : Env) (T : RootType) : LoadRun :=
  match T with
  | .nonRecord typeName =>
    ⟨[], .returned none
      (some (.errorf ("expected pointer to struct, got pointer to *" ++ typeName)))⟩
  | .record fields =>
    let run := parse L env false [] fields (zeroRecord fields)
    match run.exit with
    | .returned err => ⟨run.queried, .returned (some run.record) err⟩
    | .panicked msg => ⟨run.queried, .panicked msg⟩

/-! ## Observers used to state properties -/

/-- The fields leading to a leaf, from the root, and the type of the leaf; a path gives
the index of a field at each level. -/
def Shape.resolve : Shape → List Nat → Option (List FieldInfo × LeafType)
  | .leaf f t _, [0] => some ([f], t)
  | .nested f fields _, 0 :: ps => (fields.resolve ps).map (fun ct => (f :: ct.1, ct.2))
  | .leaf _ _ rest, (i + 1) :: ps => rest.resolve (i :: ps)
  | .nested _ _ rest, (i + 1) :: ps => rest.resolve (i :: ps)
  | _, _ => none

/-- The content of the leaf at a path. -/
def Record.get : Record → List Nat → Option Value
  | .leaf v _, [0] => some v
  | .nested fields _, 0 :: ps => fields.get ps
  | .leaf _ rest, (i + 1) :: ps => rest.get (i :: ps)
  | .nested _ rest, (i + 1) :: ps => rest.get (i :: ps)
  | _, _ => none

/-- The key `parse` builds for a leaf reached from the prefix `pre` through a chain of
fields: `buildKey` applied at each level. -/
def chainKey (L : Lib) (pre : Str) (chain : List FieldInfo) : Str :=
  chain.foldl (fun p f => buildKey p (tagValue L f)) pre

/-- The chains of fields of all leaves, depth first in declaration order. -/
def Shape.leafChains : Shape → List (List FieldInfo)
  | .done => []
  | .leaf f _ rest => [f] :: rest.leafChains
  | .nested f fields rest => fields.leafChains.map (fun ch => f :: ch) ++ rest.leafChains

/-- All fields of a shape, at every depth, satisfy `p`. -/
def Shape.all (p : FieldInfo → Bool) : Shape → Bool
  | .done => true
  | .leaf f _ rest => p f && rest.all p
  | .nested f fields rest => p f && fields.all p && rest.all p

/-- A field declared with a name and a tag. -/
def fld (name tag : String) : FieldInfo := ⟨name.toList, tag.toList, false⟩

/-- An environment given by a list of entries. -/
def envOf (entries : List (String × String)) : Env :=
  fun k => (entries.find? (fun e => e.1.toList = k)).map (fun e => e.2.toList)

/-- The record type `sampleConfig` of the tests. -/
def sampleConfig : Shape :=
  .nested (fld "Database" "database") (.leaf (fld "Host" "host") (.basic .String) .done) <|
  .nested (fld "Subscribers" "subscribers")
    (.leaf (fld "OrderManagement" "order_management") (.basic .String) .done) <|
  .nested (fld "Crons" "") (.leaf (fld "Replay" "") (.basic .String) .done) <|
  .nested (fld "GracefulShutdown" "")
    (.leaf (fld "Enabled" "is_enabled") (.basic .Bool) <|
     .leaf (fld "Seconds" "seconds") (.basic .Uint) .done) <|
  .leaf (fld "RootInt" "root_int") (.basic .Int) <|
  .leaf (fld "RootFloat" "root_float") (.basic .Float64) <|
  .leaf (fld "ListOfStrings" "list_of_strings") (.slice .String) <|
  .leaf (fld "ListOfInts" "list_of_ints") (.slice .Int) <|
  .leaf (fld "ListOfUInts" "list_of_uints") (.slice .Uint) <|
  .leaf (fld "ListOfFloats" "list_of_floats") (.slice .Float32) .done

/-- The environment set by `TestLoad`, without the two float entries. -/
def sampleEnv : Env := envOf [
  ("DATABASE__HOST", "localhost"),
  ("SUBSCRIBERS__ORDER_MANAGEMENT", "subscriber_order_management"),
  ("CRONS__REPLAY", "cron-replay"),
  ("GRACEFUL_SHUTDOWN__IS_ENABLED", "true"),
  ("GRACEFUL_SHUTDOWN__SECONDS", "10"),
  ("ROOT_INT", "-42"),
  ("LIST_OF_STRINGS", "one,two,three"),
  ("LIST_OF_INTS", "1,2,3")]


/-- A record type with a nested record, a scalar and a list. -/
def smallConfig : Shape :=
  .nested (fld "Database" "") (.leaf (fld "Host" "") (.basic .String) .done) <|
  .leaf (fld "Port" "") (.basic .Uint) <|
  .leaf (fld "Tags" "") (.slice .String) .done

/-- An environment for `smallConfig` that leaves `PORT` unset. -/
def smallEnv : Env := envOf [("DATABASE__HOST", "localhost"), ("TAGS", "a,b")]

/-- The record type `{Database{Host string}}` with the outer key overridden to `db`. -/
def dbConfig : Shape :=
  .nested (fld "Database" "db") (.leaf (fld "Host" "") (.basic .String) .done) .done

/-- The record type `{Port uint}`. -/
def portConfig : Shape := .leaf (fld "Port" "") (.basic .Uint) .done

/-! ## Statement of the naming rule -/

/-- Whether the rule of the key-path deriver puts an underscore before position `i` of
the name `s`: `i` is not the first position, `s[i]` is an upper-case letter, and either
`s[i+1]` is a lower-case letter or `s[i-1]` is a lower-case letter or a digit. -/
def breakBefore (s : Str) (i : Nat) : Bool :=
  decide (0 < i) && (s.get? i).any isUpperAZ
    && ((s.get? (i + 1)).any isLowerAZ || (s.get? (i - 1)).any isLowerOrDigit)

/-- What the rule of the key-path deriver gives for position `i` of the name `s`: the
lower-cased rune, after an underscore when `breakBefore` holds. -/
def snakePiece (L : Lib) (s : Str) (i : Nat) : Str :=
  (if breakBefore s i then ['_'] else []) ++ ((s.get? i).map (toLowerRune L)).toList

/-- The rule of the key-path deriver, position by position: the lower-cased name with
exactly one underscore before each position singled out by `breakBefore`, and none
elsewhere. -/
def snakeCase (L : Lib) (s : Str) : Str :=
  (List.range s.length).flatMap (snakePiece L s)

/-- The same rule read from left to right, given the rune before the input. -/
def snakeFrom (L : Lib) : Option Char → Str → Str
  | _, [] => []
  | prev, c :: rest =>
    (if prev.isSome && isUpperAZ c
        && ((rest.head?).any isLowerAZ || prev.any isLowerOrDigit) then ['_'] else [])
      ++ toLowerRune L c :: snakeFrom L (some c) rest

/-- The second substitution read from left to right: an underscore goes before each
upper-case letter that follows a lower-case letter or a digit. -/
def capBreaks : Option Char → Str → Str
  | _, [] => []
  | prev, b :: rest =>
    (if prev.any isLowerOrDigit && isUpperAZ b then ['_'] else [])
      ++ b :: capBreaks (some b) rest

/-- The last rune of `run`, or `prev` when `run` is empty. -/
def lastRune (prev : Option Char) (run : Str) : Option Char :=
  run.foldl (fun _ c => some c) prev

/-! ## Statement of the key composition -/

/-- Segments joined by the separator `__`. -/
def joinSegs : List Str → Str
  | [] => []
  | [x] => x
  | x :: y :: r => x ++ "__".toList ++ joinSegs (y :: r)

/-! ## Decimal numerals -/

/-- The number read from a run of decimal digits, continuing from `n`. -/
def valueFrom (n : Nat) (ds : Str) : Nat := ds.foldl (fun n c => 10 * n + (c.toNat - 48)) n

/-- The number a string of decimal digits denotes. -/
def decimalValue (ds : Str) : Nat := valueFrom 0 ds

/-- The decimal digit of value `d`. -/
def digitChar (d : Nat) : Char := Char.ofNat (48 + d)

/-- The decimal digits of `n`, most significant first; `fuel` bounds their number. -/
def natDigits : Nat → Nat → Str
  | 0, _ => []
  | fuel + 1, n =>
    if n < 10 then [digitChar n] else natDigits fuel (n / 10) ++ [digitChar (n % 10)]

/-- The function `strconv.FormatUint(n, 10)`. -/
def formatUint (n : Nat) : Str := natDigits (n + 1) n

/-- The base-10 rendering of an integer, as printed by `%v` and `strconv.Itoa`: the
digits, after a minus sign for a negative number. -/
def formatInt (x : Int) : Str :=
  if x < 0 then '-' :: formatUint x.natAbs else formatUint x.toNat

/-- The function `strings.Join(xs, ",")`. -/
def joinComma : List Str → Str
  | [] => []
  | [x] => x
  | x :: y :: r => x ++ ',' :: joinComma (y :: r)

/-! ## Statement of the list coercer -/

/-- The list coercer as the specification words it, segment by segment: each segment is
coerced by the scalar coercer (`setField` on a fresh, settable cell of the element kind)
and the first failure aborts. -/
def coerceSegments (L : Lib) (k : Kind) : List Str → Except GoError (List Value)
  | [] => .ok []
  | seg :: segs =>
    let cell := setField L false (.basic k) (zeroValue (.basic k)) seg
    match cell.2 with
    | .returned none =>
      match coerceSegments L k segs with
      | .ok vs => .ok (cell.1 :: vs)
      | .error err => .error err
    | .returned (some err) => .error err
    | .panicked msg => .error (.errorf msg)

/-- The list coercer as the specification words it: split on commas, then coerce each
segment by the scalar rule of the element kind. -/
def coerceList (L : Lib) (k : Kind) (value : Str) : Except GoError (List Value) :=
  coerceSegments L k (splitComma value)

/-- Whether an error is a `*strconv.NumError`. -/
def isNumError : GoError → Bool
  | .numError _ _ _ => true
  | .errorf _ => false

/-- The element kinds that have a case in the switch of `parseSlice`. -/
def sliceElemSupported : Kind → Bool
  | .String | .Int | .Int8 | .Int16 | .Int32 | .Int64
  | .Uint | .Uint8 | .Uint16 | .Uint32 | .Uint64 | .Float32 | .Float64 => true
  | _ => false

/-- The body of the loop of `parseSlice` for each element kind that has a case. -/
def itemParser (L : Lib) : Kind → Str → Scalar × Option GoError
  | .String => fun item => (.str item, none)
  | .Uint => fun item => (.uint (wrapUint Kind.Uint.bits (ParseUint item).1), (ParseUint item).2)
  | .Uint8 => fun item => (.uint (wrapUint Kind.Uint8.bits (ParseUint item).1), (ParseUint item).2)
  | .Uint16 => fun item =>
    (.uint (wrapUint Kind.Uint16.bits (ParseUint item).1), (ParseUint item).2)
  | .Uint32 => fun item =>
    (.uint (wrapUint Kind.Uint32.bits (ParseUint item).1), (ParseUint item).2)
  | .Uint64 => fun item =>
    (.uint (wrapUint Kind.Uint64.bits (ParseUint item).1), (ParseUint item).2)
  | .Float32 => fun item => (.float (L.toFloat32 (ParseFloat L item).1), (ParseFloat L item).2)
  | .Float64 => fun item => (.float (ParseFloat L item).1, (ParseFloat L item).2)
  | k => fun item => (.int (wrapInt k.bits (ParseInt item).1), (ParseInt item).2)

/-! ## Classes of kinds and values used in the statements -/

/-- The element kinds that are numbers: the signed and unsigned integer kinds and the
floating-point kinds. -/
def numericKind : Kind → Bool
  | .Int | .Int8 | .Int16 | .Int32 | .Int64
  | .Uint | .Uint8 | .Uint16 | .Uint32 | .Uint64 | .Float32 | .Float64 => true
  | _ => false

/-- The kinds that have a case in the switch of `setField`. -/
def setFieldSupported : Kind → Bool
  | .String | .Bool | .Int | .Int8 | .Int16 | .Int32 | .Int64
  | .Uint | .Uint8 | .Uint16 | .Uint32 | .Uint64 | .Float32 | .Float64 | .Slice => true
  | _ => false

/-- The signed integer kinds. -/
def signedKind : Kind → Bool
  | .Int | .Int8 | .Int16 | .Int32 | .Int64 => true
  | _ => false

/-- The unsigned integer kinds that `setField` writes. -/
def unsignedKind : Kind → Bool
  | .Uint | .Uint8 | .Uint16 | .Uint32 | .Uint64 => true
  | _ => false

/-- The canonical string form of a boolean, as printed by `strconv.FormatBool`. -/
def formatBool (b : Bool) : Str := if b then "true".toList else "false".toList

/-- A value has an empty segment: it starts with a comma, ends with a comma, or has two
adjacent commas. -/
def hasEmptySegment (v : Str) : Prop :=
  v.head? = some ',' ∨ v.getLast? = some ',' ∨ [',', ','] <:+: v

/-! ## Statement of the shape of keys -/

/-- A scan for underscores that are out of place: `prevUnderscore` says whether the rune
before the input is an underscore (or the input starts the string); the result is `true`
when no underscore starts the string, follows another underscore or ends the string. -/
def cleanFrom : Bool → Str → Bool
  | prevUnderscore, [] => !prevUnderscore
  | prevUnderscore, c :: rest =>
    if c = '_' then !prevUnderscore && cleanFrom true rest else cleanFrom false rest

/-- A segment that cannot be confused with the separator: it is non-empty, neither starts
nor ends with an underscore and has no two adjacent underscores. -/
def cleanSeg (s : Str) : Bool := !s.isEmpty && cleanFrom true s

/-- The segment of a field as it appears in a lookup key. -/
def upperSeg (L : Lib) (f : FieldInfo) : Str := ToUpper L (tagValue L f)

/-- The upper-cased segments of the fields declared at the top level of a record type. -/
def Shape.topSegs (L : Lib) : Shape → List Str
  | .done => []
  | .leaf f _ rest => upperSeg L f :: rest.topSegs L
  | .nested f _ rest => upperSeg L f :: rest.topSegs L

/-- A record type whose keys cannot collide: at every level the upper-cased segments are
clean and pairwise distinct. -/
def Shape.wellKeyed (L : Lib) : Shape → Bool
  | .done => true
  | .leaf f _ rest =>
    cleanSeg (upperSeg L f) && !(rest.topSegs L).contains (upperSeg L f) && rest.wellKeyed L
  | .nested f fields rest =>
    cleanSeg (upperSeg L f) && !(rest.topSegs L).contains (upperSeg L f)
      && fields.wellKeyed L && rest.wellKeyed L

/-- The upper-cased key of a chain of fields, each segment after a separator. -/
def relKey (L : Lib) : List FieldInfo → Str
  | [] => []
  | f :: r => '_' :: '_' :: (upperSeg L f ++ relKey L r)

/-- A string that is empty or starts with the separator. -/
def sepTail (t : Str) : Prop := t = [] ∨ ∃ t', t = '_' :: '_' :: t'

/-! ## Traversal order and further record types -/

/-- The order in which `parse` visits leaves: a path comes before another when it is
smaller in the lexicographic order of field indices. -/
def pathBefore : List Nat → List Nat → Bool
  | [], [] => false
  | [], _ :: _ => true
  | _ :: _, [] => false
  | i :: p, j :: q => decide (i < j) || (i == j && pathBefore p q)

/-- A record type with one unexported field, `{port uint}`. -/
def unexportedConfig : Shape := .leaf (fld "port" "") (.basic .Uint) .done

/-- The record type `{name string; Level int}`, whose first field is unexported. -/
def mixedConfig : Shape :=
  .leaf (fld "name" "") (.basic .String) <| .leaf (fld "Level" "") (.basic .Int) .done

/-- The record type `{Host string; HOST string}`: two names that differ only in case. -/
def caseConfig : Shape :=
  .leaf (fld "Host" "") (.basic .String) <| .leaf (fld "HOST" "") (.basic .String) .done

/-- The record type `{A string; B string}` with both keys overridden to `x`. -/
def sameTagConfig : Shape :=
  .leaf (fld "A" "x") (.basic .String) <| .leaf (fld "B" "x") (.basic .String) .done

/-! ## Examples -/

example : normalizeKey asciiLib "GracefulShutdown".toList = "graceful_shutdown".toList := by decide
example : normalizeKey asciiLib "HTTPServer".toList = "http_server".toList := by decide
example : normalizeKey asciiLib "aBcDe".toList = "a_bc_de".toList := by decide
example : ParseInt "-42".toList = (-42, none) := by decide
example : ParseInt "+7".toList = (7, none) := by decide
example : ParseInt "-9223372036854775808".toList = (-9223372036854775808, none) := by decide
example : (ParseInt "9223372036854775808".toList).2 =
    some (.numError "ParseInt" "9223372036854775808".toList .ErrRange) := by decide
example : (ParseUint "99999999999999999999".toList).2 =
    some (.numError "ParseUint" "99999999999999999999".toList .ErrRange) := by decide
example : splitComma "1,,3".toList = ["1".toList, [], "3".toList] := by decide
example : ("unsupported type " ++ kindName .Pointer) = "unsupported type ptr" := by decide
set_option maxRecDepth 100000 in
example : (Load asciiLib sampleEnv (.record sampleConfig)).result =
    .returned (some (
      .nested (.leaf (.scalar (.str "localhost".toList)) .done) <|
      .nested (.leaf (.scalar (.str "subscriber_order_management".toList)) .done) <|
      .nested (.leaf (.scalar (.str "cron-replay".toList)) .done) <|
      .nested (.leaf (.scalar (.bool true)) <| .leaf (.scalar (.uint 10)) .done) <|
      .leaf (.scalar (.int (-42))) <|
      .leaf (.scalar (.float 0)) <|
      .leaf (.slice [.str "one".toList, .str "two".toList, .str "three".toList]) <|
      .leaf (.slice [.int 1, .int 2, .int 3]) <|
      .leaf (.slice []) <|
      .leaf (.slice []) .done)) none := by decide
example : snakeCase asciiLib "HTTPServer".toList = "http_server".toList := by decide
example : snakeCase asciiLib "OrderManagement".toList = "order_management".toList := by decide

/-! ## Facts about the character classes -/

theorem upper_not_lower {c : Char} (h : isUpperAZ c = true) : isLowerAZ c = false := by
  simp [isUpperAZ, isLowerAZ] at *; omega

theorem upper_not_digit {c : Char} (h : isUpperAZ c = true) : isDigit09 c = false := by
  simp [isUpperAZ, isDigit09] at *; omega

theorem lower_not_upper {c : Char} (h : isLowerAZ c = true) : isUpperAZ c = false := by
  simp [isUpperAZ, isLowerAZ] at *; omega

theorem upper_not_lowerOrDigit {c : Char} (h : isUpperAZ c = true) :
    isLowerOrDigit c = false := by
  simp [isLowerOrDigit, upper_not_lower h, upper_not_digit h]

theorem alnum_ne_newline {c : Char} (h : isAlnum c = true) : c ≠ '\n' := by
  intro hc
  subst hc
  revert h
  decide

theorem toLowerRune_underscore (L : Lib) : toLowerRune L '_' = '_' := by
  simp [toLowerRune, isUpperAZ]

theorem toLowerRune_of_lower (L : Lib) {c : Char} (h : isLowerAZ c = true) :
    toLowerRune L c = c := by
  have h1 := lower_not_upper h
  have h2 : c.toNat < 128 := by simp [isLowerAZ] at h; omega
  simp [toLowerRune, h1, h2]

/-! ## The two substitutions of normalizeKey -/

theorem replaceAll_skip (m : Str → Option (Nat × Nat)) :
    ∀ (k : Nat) (s : Str), replaceAll m k s = replaceAll m 0 (s.drop k)
  | 0, s => by simp
  | k + 1, [] => by simp [replaceAll]
  | k + 1, _ :: rest => by simp [replaceAll, replaceAll_skip m k rest]

theorem replaceAll_none {m : Str → Option (Nat × Nat)} {c : Char} {rest : Str}
    (h : m (c :: rest) = none) : replaceAll m 0 (c :: rest) = c :: replaceAll m 0 rest := by
  simp [replaceAll, h]

theorem replaceAll_some {m : Str → Option (Nat × Nat)} {c : Char} {rest : Str} (n1 n2 : Nat)
    (h : m (c :: rest) = some (n1, n2)) :
    replaceAll m 0 (c :: rest) =
      ((c :: rest).take n1 ++ '_' :: ((c :: rest).take (n1 + n2)).drop n1)
        ++ replaceAll m 0 (rest.drop (n1 + n2 - 1)) := by
  rw [← replaceAll_skip]
  simp [replaceAll, h]

theorem capBreaks_cons_of_not (prev : Option Char) (b : Char) (rest : Str)
    (h : (prev.any isLowerOrDigit && isUpperAZ b) = false) :
    capBreaks prev (b :: rest) = b :: capBreaks (some b) rest := by
  simp [capBreaks, h]

theorem capBreaks_cons_of (prev : Option Char) (b : Char) (rest : Str)
    (h : (prev.any isLowerOrDigit && isUpperAZ b) = true) :
    capBreaks prev (b :: rest) = '_' :: b :: capBreaks (some b) rest := by
  simp [capBreaks, h]

theorem replaceAll_allCap : ∀ (t : Str) (prev : Option Char),
    (prev.any isLowerOrDigit && (t.head?).any isUpperAZ) = false →
    replaceAll matchAllCap 0 t = capBreaks prev t
  | [], _, _ => by simp [replaceAll, capBreaks]
  | [a], prev, h => by
    rw [capBreaks_cons_of_not prev a [] (by simpa using h), replaceAll_none (by simp [matchAllCap])]
    simp [replaceAll, capBreaks]
  | a :: b :: t, prev, h => by
    rw [capBreaks_cons_of_not prev a _ (by simpa using h)]
    by_cases hm : isLowerOrDigit a = true ∧ isUpperAZ b = true
    · have ih := replaceAll_allCap t (some b) (by simp [upper_not_lowerOrDigit hm.2])
      rw [replaceAll_some 1 1 (by simp [matchAllCap, hm]),
        capBreaks_cons_of (some a) b t (by simp [hm])]
      simp [ih]
    · have ih := replaceAll_allCap (b :: t) (some a) (by simpa using hm)
      rw [replaceAll_none (by simp [matchAllCap, hm]), ih]

theorem take_length_takeWhile (p : Char → Bool) :
    ∀ l : Str, l.take (l.takeWhile p).length = l.takeWhile p
  | [] => by simp
  | c :: l => by
    by_cases h : p c = true
    · simp [List.takeWhile_cons, h, take_length_takeWhile p l]
    · simp [List.takeWhile_cons, h]

theorem drop_length_takeWhile (p : Char → Bool) :
    ∀ l : Str, l.drop (l.takeWhile p).length = l.dropWhile p
  | [] => by simp
  | c :: l => by
    by_cases h : p c = true
    · simp [List.takeWhile_cons, List.dropWhile_cons, h, drop_length_takeWhile p l]
    · simp [List.takeWhile_cons, List.dropWhile_cons, h]

theorem capBreaks_run : ∀ (run : Str) (prev : Option Char) (Z : Str),
    (∀ c ∈ run, isLowerAZ c = true) →
    capBreaks prev (run ++ Z) = run ++ capBreaks (lastRune prev run) Z
  | [], _, _, _ => by simp [lastRune]
  | c :: run, prev, Z, h => by
    have hc : isUpperAZ c = false := lower_not_upper (h c (by simp))
    have ih := capBreaks_run run (some c) Z (fun x hx => h x (by simp [hx]))
    simp [capBreaks, hc, ih, lastRune]

theorem snakeFrom_run (L : Lib) : ∀ (run : Str) (prev : Option Char) (Z : Str),
    (∀ c ∈ run, isLowerAZ c = true) →
    snakeFrom L prev (run ++ Z) = run ++ snakeFrom L (lastRune prev run) Z
  | [], _, _, _ => by simp [lastRune]
  | c :: run, prev, Z, h => by
    have hl : isLowerAZ c = true := h c (by simp)
    have hc : isUpperAZ c = false := lower_not_upper hl
    have ih := snakeFrom_run L run (some c) Z (fun x hx => h x (by simp [hx]))
    simp [snakeFrom, hc, ih, lastRune, toLowerRune_of_lower L hl]

theorem lastRune_prop (P : Char → Prop) : ∀ (run : Str) (prev : Option Char),
    (∀ q, prev = some q → P q) → (∀ c ∈ run, P c) → ∀ q, lastRune prev run = some q → P q
  | [], prev, hp, _, q, hq => hp q (by simpa [lastRune] using hq)
  | c :: run, _, _, hr, q, hq =>
    lastRune_prop P run (some c) (fun x hx => by cases hx; exact hr c (by simp))
      (fun x hx => hr x (by simp [hx])) q (by simpa [lastRune] using hq)

theorem break_cond_eq (p : Option Char) (c : Char) (rest : Str)
    (hp : ∀ q, p = some q → isAlnum q = true)
    (hinv : ∀ q, p = some q → isLowerAZ q = true ∨ matchFirstCap (q :: c :: rest) = none) :
    (p.isSome && isUpperAZ c && ((rest.head?).any isLowerAZ || p.any isLowerOrDigit))
      = (p.any isLowerOrDigit && isUpperAZ c) := by
  cases p with
  | none => simp
  | some q =>
    have hq := alnum_ne_newline (hp q rfl)
    cases hu : isUpperAZ c
    · simp
    · cases hld : isLowerOrDigit q
      · cases rest with
        | nil => simp [hld]
        | cons l tail =>
          cases hl : isLowerAZ l
          · simp [hld, hl]
          · rcases hinv q rfl with h | h
            · simp [isLowerOrDigit, h] at hld
            · simp [matchFirstCap, hq, hu, hl] at h
      · simp [hld]

theorem matchFirstCap_none_of (c : Char) (rest : Str)
    (h : ¬ ∃ u l tail, rest = u :: l :: tail ∧ isUpperAZ u = true ∧ isLowerAZ l = true) :
    matchFirstCap (c :: rest) = none := by
  match rest with
  | [] => rfl
  | [_] => rfl
  | u :: l :: tail =>
    have : ¬ (isUpperAZ u = true ∧ isLowerAZ l = true) := fun hh => h ⟨u, l, tail, rfl, hh⟩
    simp only [matchFirstCap]
    rw [if_neg]
    tauto

theorem replaceAll_firstCap_match (c u l : Char) (tail : Str) (hc : c ≠ '\n')
    (hu : isUpperAZ u = true) (hl : isLowerAZ l = true) :
    replaceAll matchFirstCap 0 (c :: u :: l :: tail) =
      c :: '_' :: u :: l :: (tail.takeWhile isLowerAZ
        ++ replaceAll matchFirstCap 0 (tail.dropWhile isLowerAZ)) := by
  have hmatch : matchFirstCap (c :: u :: l :: tail)
      = some (1, 2 + (tail.takeWhile isLowerAZ).length) := by
    simp [matchFirstCap, hc, hu, hl]
  rw [replaceAll_some 1 (2 + (tail.takeWhile isLowerAZ).length) hmatch]
  have h3 : 1 + (2 + (tail.takeWhile isLowerAZ).length)
      = (tail.takeWhile isLowerAZ).length + 1 + 1 + 1 := by omega
  have h2 : 1 + (2 + (tail.takeWhile isLowerAZ).length) - 1
      = (tail.takeWhile isLowerAZ).length + 1 + 1 := by omega
  rw [h2, h3]
  simp [take_length_takeWhile, drop_length_takeWhile]

theorem capBreaks_cons (prev : Option Char) (b : Char) (rest : Str) :
    capBreaks prev (b :: rest) =
      (if prev.any isLowerOrDigit && isUpperAZ b then ['_'] else [])
        ++ b :: capBreaks (some b) rest := rfl

theorem snakeFrom_cons (L : Lib) (prev : Option Char) (c : Char) (rest : Str) :
    snakeFrom L prev (c :: rest) =
      (if prev.isSome && isUpperAZ c
          && ((rest.head?).any isLowerAZ || prev.any isLowerOrDigit) then ['_'] else [])
        ++ toLowerRune L c :: snakeFrom L (some c) rest := rfl

theorem map_lower_run (L : Lib) : ∀ run : Str, (∀ c ∈ run, isLowerAZ c = true) →
    List.map (toLowerRune L) run = run
  | [], _ => rfl
  | c :: run, h => by
    simp [toLowerRune_of_lower L (h c (by simp)),
      map_lower_run L run (fun x hx => h x (by simp [hx]))]

theorem snake_main (L : Lib) : ∀ (n : Nat) (s : Str) (p : Option Char), s.length ≤ n →
    (∀ c ∈ s, isAlnum c = true) → (∀ q, p = some q → isAlnum q = true) →
    (∀ q, p = some q → isLowerAZ q = true ∨ matchFirstCap (q :: s) = none) →
    ToLower L (capBreaks p (replaceAll matchFirstCap 0 s)) = snakeFrom L p s := by
  intro n
  induction n with
  | zero =>
    intro s p hlen _ _ _
    have : s = [] := List.length_eq_zero.mp (Nat.le_zero.mp hlen)
    subst this
    simp [replaceAll, capBreaks, snakeFrom, ToLower]
  | succ n ih =>
    intro s p hlen hs hp hinv
    cases s with
    | nil => simp [replaceAll, capBreaks, snakeFrom, ToLower]
    | cons c rest =>
      have hcond := break_cond_eq p c rest hp hinv
      have hc : isAlnum c = true := hs c (by simp)
      by_cases hm : ∃ u l tail, rest = u :: l :: tail ∧ isUpperAZ u = true ∧ isLowerAZ l = true
      · obtain ⟨u, l, tail, rfl, hu, hl⟩ := hm
        have hmatch : matchFirstCap (c :: u :: l :: tail)
            = some (1, 2 + (tail.takeWhile isLowerAZ).length) := by
          simp [matchFirstCap, alnum_ne_newline hc, hu, hl]
        have hrun : ∀ x ∈ l :: tail.takeWhile isLowerAZ, isLowerAZ x = true := by
          intro x hx
          rcases List.mem_cons.mp hx with h | h
          · rw [h]; exact hl
          · exact (List.mem_takeWhile_imp h)
        have hlast := lastRune_prop (fun q => isLowerAZ q = true) (tail.takeWhile isLowerAZ)
          (some l) (fun q hq => by cases hq; exact hl) (fun x hx => List.mem_takeWhile_imp hx)
        have hih := ih (tail.dropWhile isLowerAZ) (lastRune (some l) (tail.takeWhile isLowerAZ))
          (by
            have : (tail.dropWhile isLowerAZ).length ≤ tail.length :=
              (List.dropWhile_suffix isLowerAZ).length_le
            simp at hlen; omega)
          (fun x hx => hs x (by
            have := (List.dropWhile_suffix isLowerAZ).subset hx
            simp [this]))
          (fun q hq => by simp [isAlnum, hlast q hq])
          (fun q hq => Or.inl (hlast q hq))
        rw [replaceAll_firstCap_match c u l tail (alnum_ne_newline hc) hu hl]
        have e1 := capBreaks_run (l :: tail.takeWhile isLowerAZ) (some u)
          (replaceAll matchFirstCap 0 (tail.dropWhile isLowerAZ)) hrun
        have e2 := snakeFrom_run L (l :: tail.takeWhile isLowerAZ) (some u)
          (tail.dropWhile isLowerAZ) hrun
        rw [List.cons_append, List.takeWhile_append_dropWhile] at e2
        rw [List.cons_append] at e1
        have hlr : lastRune (some u) (l :: tail.takeWhile isLowerAZ)
            = lastRune (some l) (tail.takeWhile isLowerAZ) := by simp [lastRune]
        have hmap : List.map (toLowerRune L) (tail.takeWhile isLowerAZ)
            = tail.takeWhile isLowerAZ :=
          map_lower_run L _ (fun x hx => List.mem_takeWhile_imp hx)
        rw [capBreaks_cons p c, capBreaks_cons (some c) '_', capBreaks_cons (some '_') u, e1, hlr,
          snakeFrom_cons L p c, snakeFrom_cons L (some c) u, e2, hlr, hcond]
        simp only [ToLower] at hih ⊢
        have hlu : isLowerOrDigit '_' = false := by decide
        have hcu : isUpperAZ '_' = false := by decide
        split <;> simp [hlu, hcu, hu, hl, hih, hmap, toLowerRune_underscore,
          toLowerRune_of_lower L hl]
      · have hnone := matchFirstCap_none_of c rest hm
        have hih := ih rest (some c) (by simpa using hlen) (fun x hx => hs x (by simp [hx]))
          (fun q hq => by cases hq; exact hc) (fun q hq => by cases hq; exact Or.inr hnone)
        rw [replaceAll_none hnone]
        rw [capBreaks_cons, snakeFrom_cons, hcond]
        simp only [ToLower] at hih ⊢
        rw [List.map_append, List.map_cons, hih]
        split <;> simp [toLowerRune_underscore]

theorem getElem?_append_length (pre : Str) (c : Char) (rest : Str) :
    (pre ++ c :: rest)[pre.length]? = some c := by
  induction pre with
  | nil => simp
  | cons a pre ih => simpa using ih

theorem snakePiece_head (L : Lib) (pre : Str) (c : Char) (rest : Str) :
    snakePiece L (pre ++ c :: rest) pre.length =
      (if (pre.getLast?).isSome && isUpperAZ c
          && ((rest.head?).any isLowerAZ || (pre.getLast?).any isLowerOrDigit) then ['_'] else [])
        ++ [toLowerRune L c] := by
  have h0 : (pre ++ c :: rest)[pre.length]? = some c := getElem?_append_length pre c rest
  have h1 : (pre ++ c :: rest)[pre.length + 1]? = rest.head? := by
    rw [List.getElem?_append_right (by omega)]
    cases rest <;> simp
  rcases List.eq_nil_or_concat pre with rfl | ⟨init, q, rfl⟩
  · simp [snakePiece, breakBefore]
  · rw [List.concat_eq_append] at h0 h1 ⊢
    have h2 : (init ++ [q] ++ c :: rest)[(init ++ [q]).length - 1]? = some q := by
      have := getElem?_append_length init q (c :: rest)
      simpa using this
    simp only [snakePiece, breakBefore, List.get?_eq_getElem?, h0, h1, h2]
    simp

theorem snakeFrom_eq_pieces (L : Lib) : ∀ (s pre : Str),
    snakeFrom L (pre.getLast?) s
      = (List.range s.length).flatMap (fun j => snakePiece L (pre ++ s) (pre.length + j))
  | [], _ => by simp [snakeFrom]
  | c :: rest, pre => by
    have ih := snakeFrom_eq_pieces L rest (pre ++ [c])
    simp only [List.getLast?_append, List.getLast?_singleton, Option.or_some, List.append_assoc,
      List.singleton_append, List.length_append, List.length_singleton] at ih
    rw [snakeFrom_cons, List.length_cons, List.range_succ_eq_map, List.flatMap_cons,
      Nat.add_zero, snakePiece_head, List.flatMap_map, ih]
    simp [Nat.add_assoc, Nat.add_comm 1]

theorem normalizeKey_eq_snakeCase (L : Lib) (s : Str) (hs : ∀ c ∈ s, isAlnum c = true) :
    normalizeKey L s = snakeCase L s := by
  have h1 := snake_main L s.length s none (Nat.le_refl _) hs (fun q hq => by cases hq)
    (fun q hq => by cases hq)
  have h2 := replaceAll_allCap (replaceAll matchFirstCap 0 s) none (by simp)
  have h3 := snakeFrom_eq_pieces L s []
  simp only [List.getLast?_nil, List.nil_append, List.length_nil, Nat.zero_add] at h3
  simp only [normalizeKey, h2, h1, h3, snakeCase]

/-! ## The walk -/

theorem parse_leaf (L : Lib) (env : Env) (sticky : Bool) (pre : Str) (f : FieldInfo)
    (t : LeafType) (rest : Shape) (old : Value) (r : Record) :
    parse L env sticky pre (.leaf f t rest) (.leaf old r) =
      if getEnv L env (buildKey pre (tagValue L f)) = [] then
        ⟨.leaf old (parse L env sticky pre rest r).record,
          ToUpper L (buildKey pre (tagValue L f)) :: (parse L env sticky pre rest r).queried,
          (parse L env sticky pre rest r).exit⟩
      else if (setField L (sticky || !isExported L f) t old
          (getEnv L env (buildKey pre (tagValue L f)))).2 = .returned none then
        ⟨.leaf (setField L (sticky || !isExported L f) t old
            (getEnv L env (buildKey pre (tagValue L f)))).1 (parse L env sticky pre rest r).record,
          ToUpper L (buildKey pre (tagValue L f)) :: (parse L env sticky pre rest r).queried,
          (parse L env sticky pre rest r).exit⟩
      else
        ⟨.leaf (setField L (sticky || !isExported L f) t old
            (getEnv L env (buildKey pre (tagValue L f)))).1 r,
          [ToUpper L (buildKey pre (tagValue L f))],
          (setField L (sticky || !isExported L f) t old
            (getEnv L env (buildKey pre (tagValue L f)))).2⟩ := by
  simp only [parse]

theorem parse_nested (L : Lib) (env : Env) (sticky : Bool) (pre : Str) (f : FieldInfo)
    (fields rest : Shape) (sub r : Record) :
    parse L env sticky pre (.nested f fields rest) (.nested sub r) =
      if (parse L env (sticky || (!isExported L f && !f.Anonymous))
          (buildKey pre (tagValue L f)) fields sub).exit = .returned none then
        ⟨.nested (parse L env (sticky || (!isExported L f && !f.Anonymous))
            (buildKey pre (tagValue L f)) fields sub).record (parse L env sticky pre rest r).record,
          (parse L env (sticky || (!isExported L f && !f.Anonymous))
            (buildKey pre (tagValue L f)) fields sub).queried
            ++ (parse L env sticky pre rest r).queried,
          (parse L env sticky pre rest r).exit⟩
      else
        ⟨.nested (parse L env (sticky || (!isExported L f && !f.Anonymous))
            (buildKey pre (tagValue L f)) fields sub).record r,
          (parse L env (sticky || (!isExported L f && !f.Anonymous))
            (buildKey pre (tagValue L f)) fields sub).queried,
          (parse L env (sticky || (!isExported L f && !f.Anonymous))
            (buildKey pre (tagValue L f)) fields sub).exit⟩ := by
  simp only [parse]

/-- A leaf whose lookup value is empty keeps its content, however the walk ends. -/
theorem parse_frame (L : Lib) (env : Env) : ∀ (s : Shape) (sticky : Bool) (pre : Str)
    (r : Record) (path : List Nat) (chain : List FieldInfo) (t : LeafType),
    s.resolve path = some (chain, t) → getEnv L env (chainKey L pre chain) = [] →
    (parse L env sticky pre s r).record.get path = r.get path := by
  intro s
  induction s with
  | done => intro sticky pre r path chain t h; simp [Shape.resolve] at h
  | leaf f t0 rest ih =>
    intro sticky pre r path chain t h hv
    cases r with
    | done => simp [parse]
    | nested _ _ => simp [parse]
    | leaf old r =>
      rw [parse_leaf]
      rcases path with _ | ⟨_ | i, ps⟩
      · simp [Shape.resolve] at h
      · cases ps with
        | nil =>
          simp [Shape.resolve] at h
          obtain ⟨rfl, rfl⟩ := h
          simp [chainKey] at hv
          simp [hv, Record.get]
        | cons _ _ => simp [Shape.resolve] at h
      · simp only [Shape.resolve] at h
        have := ih sticky pre r (i :: ps) chain t h hv
        split_ifs <;> simp [Record.get, this]
  | nested f fields rest ihf ihr =>
    intro sticky pre r path chain t h hv
    cases r with
    | done => simp [parse]
    | leaf _ _ => simp [parse]
    | nested sub r =>
      rw [parse_nested]
      rcases path with _ | ⟨_ | i, ps⟩
      · simp [Shape.resolve] at h
      · simp only [Shape.resolve, Option.map_eq_some'] at h
        obtain ⟨⟨ch, t1⟩, h1, h2⟩ := h
        simp at h2
        obtain ⟨rfl, rfl⟩ := h2
        have := ihf (sticky || (!isExported L f && !f.Anonymous)) (buildKey pre (tagValue L f))
          sub ps ch t1 h1 (by simpa [chainKey] using hv)
        split_ifs <;> simp [Record.get, this]
      · simp only [Shape.resolve] at h
        have := ihr sticky pre r (i :: ps) chain t h hv
        split_ifs <;> simp [Record.get, this]

theorem parse_ok (L : Lib) (env : Env) : ∀ (s : Shape) (pre : Str),
    s.all (isExported L) = true →
    (∀ path chain t, s.resolve path = some (chain, t) →
      getEnv L env (chainKey L pre chain) ≠ [] →
      (setField L false t (zeroValue t) (getEnv L env (chainKey L pre chain))).2
        = .returned none) →
    (parse L env false pre s (zeroRecord s)).exit = .returned none ∧
    ∀ path chain t, s.resolve path = some (chain, t) →
      (parse L env false pre s (zeroRecord s)).record.get path =
        some (if getEnv L env (chainKey L pre chain) = [] then zeroValue t
          else (setField L false t (zeroValue t) (getEnv L env (chainKey L pre chain))).1) := by
  intro s
  induction s with
  | done =>
    intro pre _ _
    refine ⟨by simp [parse, zeroRecord], ?_⟩
    intro path chain t h
    simp [Shape.resolve] at h
  | leaf f t0 rest ih =>
    intro pre hexp hco
    simp only [Shape.all, Bool.and_eq_true] at hexp
    have hrest := ih pre hexp.2 (fun path chain t h => by
      rcases path with _ | ⟨i, ps⟩
      · cases rest <;> simp [Shape.resolve] at h
      · exact hco ((i + 1) :: ps) chain t (by simpa [Shape.resolve] using h))
    have hhead := hco [0] [f] t0 (by simp [Shape.resolve])
    simp only [chainKey, List.foldl_cons, List.foldl_nil] at hhead
    rw [zeroRecord, parse_leaf]
    simp only [hexp.1, Bool.not_true, Bool.or_self]
    by_cases hv : getEnv L env (buildKey pre (tagValue L f)) = []
    · rw [if_pos hv]
      refine ⟨hrest.1, ?_⟩
      intro path chain t h
      rcases path with _ | ⟨_ | i, ps⟩
      · simp [Shape.resolve] at h
      · cases ps with
        | nil =>
          simp [Shape.resolve] at h
          obtain ⟨rfl, rfl⟩ := h
          simp [chainKey, hv, Record.get]
        | cons _ _ => simp [Shape.resolve] at h
      · simp only [Shape.resolve] at h
        simpa [Record.get] using hrest.2 (i :: ps) chain t h
    · rw [if_neg hv, if_pos (hhead hv)]
      refine ⟨hrest.1, ?_⟩
      intro path chain t h
      rcases path with _ | ⟨_ | i, ps⟩
      · simp [Shape.resolve] at h
      · cases ps with
        | nil =>
          simp [Shape.resolve] at h
          obtain ⟨rfl, rfl⟩ := h
          simp [chainKey, hv, Record.get]
        | cons _ _ => simp [Shape.resolve] at h
      · simp only [Shape.resolve] at h
        simpa [Record.get] using hrest.2 (i :: ps) chain t h
  | nested f fields rest ihf ihr =>
    intro pre hexp hco
    simp only [Shape.all, Bool.and_eq_true] at hexp
    have hrest := ihr pre hexp.2 (fun path chain t h => by
      rcases path with _ | ⟨i, ps⟩
      · cases rest <;> simp [Shape.resolve] at h
      · exact hco ((i + 1) :: ps) chain t (by simpa [Shape.resolve] using h))
    have hin := ihf (buildKey pre (tagValue L f)) hexp.1.2 (fun path chain t h => by
      have := hco (0 :: path) (f :: chain) t (by simp [Shape.resolve, h])
      simpa [chainKey] using this)
    rw [zeroRecord, parse_nested]
    simp only [hexp.1.1, Bool.not_true, Bool.false_and, Bool.or_self]
    rw [if_pos hin.1]
    refine ⟨hrest.1, ?_⟩
    intro path chain t h
    rcases path with _ | ⟨_ | i, ps⟩
    · simp [Shape.resolve] at h
    · simp only [Shape.resolve, Option.map_eq_some'] at h
      obtain ⟨⟨ch, t1⟩, h1, h2⟩ := h
      simp at h2
      obtain ⟨rfl, rfl⟩ := h2
      simpa [Record.get, chainKey] using hin.2 ps ch t1 h1
    · simp only [Shape.resolve] at h
      simpa [Record.get] using hrest.2 (i :: ps) chain t h

theorem parse_all_empty (L : Lib) (env : Env) : ∀ (s : Shape) (sticky : Bool) (pre : Str)
    (r : Record),
    (∀ path chain t, s.resolve path = some (chain, t) →
      getEnv L env (chainKey L pre chain) = []) →
    (parse L env sticky pre s r).record = r ∧
      (parse L env sticky pre s r).exit = .returned none := by
  intro s
  induction s with
  | done => intro sticky pre r _; simp [parse]
  | leaf f t0 rest ih =>
    intro sticky pre r hall
    cases r with
    | done => simp [parse]
    | nested _ _ => simp [parse]
    | leaf old r =>
      have hrest := ih sticky pre r (fun path chain t h => by
        rcases path with _ | ⟨i, ps⟩
        · cases rest <;> simp [Shape.resolve] at h
        · exact hall ((i + 1) :: ps) chain t (by simpa [Shape.resolve] using h))
      have hhead := hall [0] [f] t0 (by simp [Shape.resolve])
      simp only [chainKey, List.foldl_cons, List.foldl_nil] at hhead
      rw [parse_leaf, if_pos hhead]
      simp [hrest.1, hrest.2]
  | nested f fields rest ihf ihr =>
    intro sticky pre r hall
    cases r with
    | done => simp [parse]
    | leaf _ _ => simp [parse]
    | nested sub r =>
      have hrest := ihr sticky pre r (fun path chain t h => by
        rcases path with _ | ⟨i, ps⟩
        · cases rest <;> simp [Shape.resolve] at h
        · exact hall ((i + 1) :: ps) chain t (by simpa [Shape.resolve] using h))
      have hin := ihf (sticky || (!isExported L f && !f.Anonymous))
        (buildKey pre (tagValue L f)) sub (fun path chain t h => by
          have := hall (0 :: path) (f :: chain) t (by simp [Shape.resolve, h])
          simpa [chainKey] using this)
      rw [parse_nested, if_pos hin.2]
      simp [hrest.1, hrest.2, hin.1]

theorem parse_queried (L : Lib) (env : Env) : ∀ (s : Shape) (sticky : Bool) (pre : Str),
    (parse L env sticky pre s (zeroRecord s)).queried
        <+: s.leafChains.map (fun ch => ToUpper L (chainKey L pre ch)) ∧
      ((parse L env sticky pre s (zeroRecord s)).exit = .returned none →
        (parse L env sticky pre s (zeroRecord s)).queried
          = s.leafChains.map (fun ch => ToUpper L (chainKey L pre ch))) := by
  intro s
  induction s with
  | done => intro sticky pre; simp [parse, zeroRecord, Shape.leafChains]
  | leaf f t0 rest ih =>
    intro sticky pre
    have hrest := ih sticky pre
    rw [zeroRecord, parse_leaf]
    simp only [Shape.leafChains, List.map_cons, chainKey, List.foldl_cons, List.foldl_nil]
    simp only [chainKey] at hrest
    split_ifs with h1 h2
    · exact ⟨(List.prefix_cons_inj _).mpr hrest.1, fun h => by simp [hrest.2 h]⟩
    · exact ⟨(List.prefix_cons_inj _).mpr hrest.1, fun h => by simp [hrest.2 h]⟩
    · refine ⟨?_, fun h => absurd h h2⟩
      simp [List.prefix_cons_inj]
  | nested f fields rest ihf ihr =>
    intro sticky pre
    have hrest := ihr sticky pre
    have hin := ihf (sticky || (!isExported L f && !f.Anonymous)) (buildKey pre (tagValue L f))
    rw [zeroRecord, parse_nested]
    simp only [Shape.leafChains, List.map_append, List.map_map]
    have hkey : (fun ch => ToUpper L (chainKey L pre ch)) ∘ (fun ch => f :: ch)
        = fun ch => ToUpper L (chainKey L (buildKey pre (tagValue L f)) ch) := by
      funext ch; simp [chainKey]
    rw [hkey]
    split_ifs with h1
    · rw [hin.2 h1]
      exact ⟨(List.prefix_append_right_inj _).mpr hrest.1, fun h => by rw [hrest.2 h]⟩
    · exact ⟨hin.1.trans (List.prefix_append _ _), fun h => absurd h h1⟩

theorem joinSegs_cons_append (a b : Str) (r : List Str) :
    joinSegs ((a ++ "__".toList ++ b) :: r) = a ++ "__".toList ++ joinSegs (b :: r) := by
  cases r with
  | nil => simp [joinSegs]
  | cons y r => simp [joinSegs, List.append_assoc]

theorem chainKey_eq_joinSegs (L : Lib) : ∀ (chain : List FieldInfo) (pre : Str), pre ≠ [] →
    chainKey L pre chain = joinSegs (pre :: chain.map (tagValue L))
  | [], pre, _ => by simp [chainKey, joinSegs]
  | f :: chain, pre, h => by
    have hb : buildKey pre (tagValue L f) = pre ++ "__".toList ++ tagValue L f := by
      simp [buildKey, h]
    have ih := chainKey_eq_joinSegs L chain (pre ++ "__".toList ++ tagValue L f) (by simp [h])
    simp only [chainKey, List.foldl_cons, hb] at ih ⊢
    rw [ih, List.map_cons, joinSegs_cons_append]
    simp [joinSegs]

theorem replaceAll_ne_nil (m : Str → Option (Nat × Nat)) (c : Char) (rest : Str) :
    replaceAll m 0 (c :: rest) ≠ [] := by
  cases h : m (c :: rest) with
  | none => simp [replaceAll, h]
  | some n => obtain ⟨n1, n2⟩ := n; simp [replaceAll, h]

theorem normalizeKey_ne_nil (L : Lib) (s : Str) (h : s ≠ []) : normalizeKey L s ≠ [] := by
  obtain ⟨c, rest, rfl⟩ := List.exists_cons_of_ne_nil h
  have h1 := replaceAll_ne_nil matchFirstCap c rest
  obtain ⟨c1, rest1, h2⟩ := List.exists_cons_of_ne_nil h1
  have h3 := replaceAll_ne_nil matchAllCap c1 rest1
  simp only [normalizeKey, ToLower, h2, ne_eq, List.map_eq_nil_iff]
  exact h3

theorem tagValue_ne_nil (L : Lib) (f : FieldInfo) (h : f.Name ≠ []) : tagValue L f ≠ [] := by
  unfold tagValue
  split_ifs with ht
  · exact normalizeKey_ne_nil L _ h
  · exact ht

theorem chainKey_root (L : Lib) (f : FieldInfo) (chain : List FieldInfo) (h : f.Name ≠ []) :
    chainKey L [] (f :: chain) = joinSegs ((f :: chain).map (tagValue L)) := by
  have := chainKey_eq_joinSegs L chain (tagValue L f) (tagValue_ne_nil L f h)
  simpa [chainKey, buildKey] using this

theorem leafChains_head (p : FieldInfo → Bool) : ∀ (s : Shape), s.all p = true →
    ∀ ch ∈ s.leafChains, ∃ f rest, ch = f :: rest ∧ p f = true := by
  intro s
  induction s with
  | done => intro _ ch h; simp [Shape.leafChains] at h
  | leaf f t rest ih =>
    intro hall ch h
    simp only [Shape.all, Bool.and_eq_true] at hall
    simp only [Shape.leafChains, List.mem_cons] at h
    rcases h with rfl | h
    · exact ⟨f, [], rfl, hall.1⟩
    · exact ih hall.2 ch h
  | nested f fields rest _ ihr =>
    intro hall ch h
    simp only [Shape.all, Bool.and_eq_true] at hall
    simp only [Shape.leafChains, List.mem_append, List.mem_map] at h
    rcases h with ⟨ch0, _, rfl⟩ | h
    · exact ⟨f, ch0, rfl, hall.1.1⟩
    · exact ihr hall.2 ch h

/-! ## Numerals and lists -/

theorem two64 : (2 : Nat) ^ 64 = 18446744073709551616 := by norm_num

theorem valueFrom_ge (ds : Str) : ∀ n, n ≤ valueFrom n ds := by
  induction ds with
  | nil => intro n; simp [valueFrom]
  | cons c cs ih =>
    intro n
    have := ih (10 * n + (c.toNat - 48))
    simp only [valueFrom, List.foldl_cons] at this ⊢
    omega

theorem parseUintLoop_digits : ∀ (ds : Str) (n : Nat), (∀ c ∈ ds, isDigit09 c = true) →
    n < 2 ^ 64 →
    parseUintLoop n ds =
      if valueFrom n ds < 2 ^ 64 then (valueFrom n ds, none) else (maxUint64, some .ErrRange) := by
  intro ds
  induction ds with
  | nil => intro n _ hn; simp only [parseUintLoop, valueFrom, List.foldl_nil, if_pos hn]
  | cons c cs ih =>
    intro n hd hn
    have hc : isDigit09 c = true := hd c (by simp)
    have hd9 : c.toNat - 48 ≤ 9 := by simp [isDigit09] at hc; omega
    have hge := valueFrom_ge cs (10 * n + (c.toNat - 48))
    have hv : valueFrom n (c :: cs) = valueFrom (10 * n + (c.toNat - 48)) cs := by
      simp [valueFrom]
    rw [hv]
    simp only [parseUintLoop, hc, if_true, maxUint64, two64] at *
    by_cases h1 : n ≥ 18446744073709551615 / 10 + 1
    · rw [if_pos h1, if_neg (by omega)]
    · rw [if_neg h1]
      have h10 : n * 10 % 18446744073709551616 = n * 10 := Nat.mod_eq_of_lt (by omega)
      rw [h10]
      by_cases h2 : n * 10 + (c.toNat - 48) < 18446744073709551616
      · have h11 : (n * 10 + (c.toNat - 48)) % 18446744073709551616 = n * 10 + (c.toNat - 48) :=
          Nat.mod_eq_of_lt h2
        rw [h11, if_neg (by omega)]
        have := ih (n * 10 + (c.toNat - 48)) (fun x hx => hd x (by simp [hx])) h2
        rw [this, Nat.mul_comm n 10]
      · have h11 : (n * 10 + (c.toNat - 48)) % 18446744073709551616
            = n * 10 + (c.toNat - 48) - 18446744073709551616 := by
          rw [Nat.mod_eq_sub_mod (by omega)]
          exact Nat.mod_eq_of_lt (by omega)
        rw [h11, if_pos (by omega), if_neg (by omega)]

theorem digitChar_spec (d : Nat) (h : d < 10) :
    isDigit09 (digitChar d) = true ∧ (digitChar d).toNat - 48 = d ∧ digitChar d ≠ ','
      ∧ digitChar d ≠ '-' ∧ digitChar d ≠ '+' := by
  interval_cases d <;> decide

theorem valueFrom_append (n : Nat) (xs : Str) (c : Char) :
    valueFrom n (xs ++ [c]) = 10 * valueFrom n xs + (c.toNat - 48) := by
  simp [valueFrom, List.foldl_append]

theorem natDigits_spec : ∀ (fuel n : Nat), n < fuel →
    (∀ c ∈ natDigits fuel n, isDigit09 c = true ∧ c ≠ ',') ∧ valueFrom 0 (natDigits fuel n) = n
      ∧ natDigits fuel n ≠ [] := by
  intro fuel
  induction fuel with
  | zero => intro n h; omega
  | succ fuel ih =>
    intro n h
    by_cases h10 : n < 10
    · have hd := digitChar_spec n h10
      simp only [natDigits, if_pos h10]
      refine ⟨?_, ?_, by simp⟩
      · intro c hc
        simp only [List.mem_singleton] at hc
        subst hc
        exact ⟨hd.1, hd.2.2.1⟩
      · simp [valueFrom, hd.2.1]
    · have hd := digitChar_spec (n % 10) (Nat.mod_lt _ (by omega))
      have := ih (n / 10) (by omega)
      simp only [natDigits, if_neg h10]
      refine ⟨?_, ?_, by simp⟩
      · intro c hc
        rcases List.mem_append.mp hc with hc | hc
        · exact this.1 c hc
        · simp only [List.mem_singleton] at hc
          subst hc
          exact ⟨hd.1, hd.2.2.1⟩
      · rw [valueFrom_append, this.2.1, hd.2.1]
        omega

theorem parseUintCore_formatUint (n : Nat) (h : n < 2 ^ 64) :
    parseUintCore (formatUint n) = (n, none) := by
  have hs := natDigits_spec (n + 1) n (by omega)
  unfold parseUintCore formatUint
  rw [if_neg hs.2.2, parseUintLoop_digits _ 0 (fun c hc => (hs.1 c hc).1) (by norm_num), hs.2.1,
    if_pos h]

theorem formatUint_head (n : Nat) : ∃ c cs, formatUint n = c :: cs ∧ isDigit09 c = true := by
  have hs := natDigits_spec (n + 1) n (by omega)
  obtain ⟨c, cs, h⟩ := List.exists_cons_of_ne_nil hs.2.2
  exact ⟨c, cs, h, (hs.1 c (by rw [h]; simp)).1⟩

theorem digit_not_sign {c : Char} (h : isDigit09 c = true) : c ≠ '-' ∧ c ≠ '+' := by
  constructor <;> (intro hc; subst hc; revert h; decide)

theorem ParseInt_minus (cs : Str) (un : Nat) (h : parseUintCore cs = (un, none))
    (hr : un ≤ 2 ^ 63) :
    ParseInt ('-' :: cs) = (wrapInt 64 (- wrapInt 64 (Int.ofNat un)), none) := by
  have p63 : (2 : Nat) ^ 63 = 9223372036854775808 := by norm_num
  rw [p63] at hr
  simp [ParseInt, h]
  exact hr

theorem ParseInt_plain (c : Char) (cs : Str) (un : Nat) (hc : isDigit09 c = true)
    (h : parseUintCore (c :: cs) = (un, none)) (hr : un < 2 ^ 63) :
    ParseInt (c :: cs) = (wrapInt 64 (Int.ofNat un), none) := by
  have hsign := digit_not_sign hc
  have p63 : (2 : Nat) ^ 63 = 9223372036854775808 := by norm_num
  rw [p63] at hr
  simp [ParseInt, h, hsign.1, hsign.2]
  exact hr

theorem ParseInt_formatInt (x : Int) (hlo : -(2 : Int) ^ 63 ≤ x) (hhi : x < (2 : Int) ^ 63) :
    ParseInt (formatInt x) = (x, none) := by
  have p63 : (2 : Nat) ^ 63 = 9223372036854775808 := by norm_num
  have i63 : (2 : Int) ^ 63 = 9223372036854775808 := by norm_num
  have i64 : (2 : Int) ^ 64 = 18446744073709551616 := by norm_num
  rw [i63] at hlo hhi
  by_cases hneg : x < 0
  · have hn : x.natAbs < 2 ^ 64 := by rw [two64]; omega
    have hu := parseUintCore_formatUint x.natAbs hn
    simp only [formatInt, if_pos hneg]
    rw [ParseInt_minus _ _ hu (by rw [p63]; omega)]
    simp only [wrapInt, p63, i63, i64, Prod.mk.injEq, and_true]
    have hx : Int.ofNat x.natAbs = -x := by
      simp only [Int.ofNat_eq_coe, Int.natCast_natAbs]
      exact abs_of_neg hneg
    rw [hx]
    omega
  · obtain ⟨c, cs, hcs, hc⟩ := formatUint_head x.toNat
    have hn : x.toNat < 2 ^ 64 := by rw [two64]; omega
    have hu := parseUintCore_formatUint x.toNat hn
    rw [hcs] at hu
    simp only [formatInt, if_neg hneg, hcs]
    rw [ParseInt_plain c cs _ hc hu (by rw [p63]; omega)]
    simp only [wrapInt, p63, i63, i64, Prod.mk.injEq, and_true]
    have hx : Int.ofNat x.toNat = x := by
      simp only [Int.ofNat_eq_coe]
      exact Int.toNat_of_nonneg (by omega)
    rw [hx]
    omega

theorem splitComma_ne_nil : ∀ s : Str, splitComma s ≠ []
  | [] => by simp [splitComma]
  | c :: cs => by
    have := splitComma_ne_nil cs
    obtain ⟨h, t, ht⟩ := List.exists_cons_of_ne_nil this
    by_cases hc : c = ','
    · simp [splitComma, hc]
    · simp [splitComma, hc, ht]

theorem splitComma_cons_of_ne (c : Char) (cs : Str) (hc : c ≠ ',') :
    ∃ h t, splitComma cs = h :: t ∧ splitComma (c :: cs) = (c :: h) :: t := by
  obtain ⟨h, t, ht⟩ := List.exists_cons_of_ne_nil (splitComma_ne_nil cs)
  exact ⟨h, t, ht, by simp [splitComma, hc, ht]⟩

theorem splitComma_length : ∀ s : Str, (splitComma s).length = s.count ',' + 1
  | [] => by simp [splitComma]
  | c :: cs => by
    have ih := splitComma_length cs
    by_cases hc : c = ','
    · subst hc
      simp [splitComma, ih]
    · obtain ⟨h, t, ht, hs⟩ := splitComma_cons_of_ne c cs hc
      rw [hs, List.count_cons_of_ne (Ne.symm hc), ← ih, ht]
      simp

theorem joinComma_cons_cons (c : Char) (h : Str) (t : List Str) :
    joinComma ((c :: h) :: t) = c :: joinComma (h :: t) := by
  cases t <;> simp [joinComma]

theorem joinComma_splitComma : ∀ s : Str, joinComma (splitComma s) = s
  | [] => by simp [splitComma, joinComma]
  | c :: cs => by
    have ih := joinComma_splitComma cs
    by_cases hc : c = ','
    · subst hc
      obtain ⟨h, t, ht⟩ := List.exists_cons_of_ne_nil (splitComma_ne_nil cs)
      rw [ht] at ih
      simp [splitComma, ht, joinComma, ih]
    · obtain ⟨h, t, ht, hs⟩ := splitComma_cons_of_ne c cs hc
      rw [hs, joinComma_cons_cons, ← ht, ih]

theorem splitComma_of_no_comma : ∀ seg : Str, (∀ c ∈ seg, c ≠ ',') → splitComma seg = [seg]
  | [], _ => by simp [splitComma]
  | c :: seg, h => by
    have ih := splitComma_of_no_comma seg (fun x hx => h x (by simp [hx]))
    simp [splitComma, h c (by simp), ih]

theorem splitComma_append_comma : ∀ (seg rest : Str), (∀ c ∈ seg, c ≠ ',') →
    splitComma (seg ++ ',' :: rest) = seg :: splitComma rest
  | [], rest, _ => by simp [splitComma]
  | c :: seg, rest, h => by
    have ih := splitComma_append_comma seg rest (fun x hx => h x (by simp [hx]))
    simp [splitComma, h c (by simp), ih]

theorem splitComma_joinComma : ∀ xs : List Str, xs ≠ [] → (∀ x ∈ xs, ∀ c ∈ x, c ≠ ',') →
    splitComma (joinComma xs) = xs
  | [], h, _ => absurd rfl h
  | [x], _, hx => by simpa [joinComma] using splitComma_of_no_comma x (hx x (by simp))
  | x :: y :: r, _, hx => by
    have ih := splitComma_joinComma (y :: r) (by simp) (fun z hz => hx z (by simp [hz]))
    rw [joinComma, splitComma_append_comma x _ (hx x (by simp)), ih]

theorem parseItems_total (g : Str → Scalar) : ∀ items : List Str,
    parseItems (fun item => (g item, none)) items = .ok (items.map g)
  | [] => rfl
  | item :: items => by simp [parseItems, parseItems_total g items]

theorem parseItems_map_ok (f : Str → Scalar × Option GoError) (enc : Int → Str) :
    ∀ xs : List Int, (∀ x ∈ xs, f (enc x) = (.int x, none)) →
    parseItems f (xs.map enc) = .ok (xs.map Scalar.int)
  | [], _ => rfl
  | x :: xs, h => by
    have ih := parseItems_map_ok f enc xs (fun y hy => h y (by simp [hy]))
    simp [parseItems, h x (by simp), ih]

theorem formatInt_no_comma (x : Int) : ∀ c ∈ formatInt x, c ≠ ',' := by
  intro c hc
  unfold formatInt at hc
  split_ifs at hc
  · rcases List.mem_cons.mp hc with h | h
    · rw [h]; decide
    · exact ((natDigits_spec _ _ (Nat.lt_succ_self _)).1 c h).2
  · exact ((natDigits_spec _ _ (Nat.lt_succ_self _)).1 c hc).2

theorem wrapInt64_id (x : Int) (hlo : -(2 : Int) ^ 63 ≤ x) (hhi : x < (2 : Int) ^ 63) :
    wrapInt 64 x = x := by
  have i63 : (2 : Int) ^ 63 = 9223372036854775808 := by norm_num
  have i64 : (2 : Int) ^ 64 = 18446744073709551616 := by norm_num
  rw [i63] at hlo hhi
  simp only [wrapInt, i63, i64]
  omega

theorem parseSlice_int64 (L : Lib) (k : Kind) (hk : k = .Int64 ∨ k = .Int) (old : Value)
    (xs : List Int) (hne : xs ≠ [])
    (hr : ∀ x ∈ xs, -(2 : Int) ^ 63 ≤ x ∧ x < (2 : Int) ^ 63) :
    parseSlice L false k old (joinComma (xs.map formatInt))
      = (.slice (xs.map Scalar.int), .returned none) := by
  have hsplit : splitComma (joinComma (xs.map formatInt)) = xs.map formatInt :=
    splitComma_joinComma _ (by simpa using hne) (by
      intro s hs
      obtain ⟨x, _, rfl⟩ := List.mem_map.mp hs
      exact formatInt_no_comma x)
  have hitems := parseItems_map_ok
    (fun item => (Scalar.int (wrapInt 64 (ParseInt item).1), (ParseInt item).2)) formatInt xs
    (fun x hx => by
      simp [ParseInt_formatInt x (hr x hx).1 (hr x hx).2, wrapInt64_id x (hr x hx).1 (hr x hx).2])
  rcases hk with rfl | rfl <;> simp [parseSlice, hsplit, Kind.bits, hitems, assign]

theorem coerceSegments_eq (L : Lib) (k : Kind) (f : Str → Scalar × Option GoError)
    (hf : ∀ seg, setField L false (.basic k) (zeroValue (.basic k)) seg =
      (if (f seg).2 = none then .scalar (f seg).1 else zeroValue (.basic k),
        .returned (f seg).2)) :
    ∀ items : List Str, coerceSegments L k items =
      match parseItems f items with
      | .ok xs => .ok (xs.map Value.scalar)
      | .error err => .error err
  | [] => rfl
  | item :: items => by
    have ih := coerceSegments_eq L k f hf items
    rcases hfi : f item with ⟨x, _ | err⟩
    · simp only [coerceSegments, hf item, hfi, parseItems, ih]
      cases parseItems f items <;> simp
    · simp only [coerceSegments, hf item, hfi, parseItems]

theorem parseItems_error (f : Str → Scalar × Option GoError) (e : GoError) :
    ∀ items : List Str, parseItems f items = .error e → ∃ item, (f item).2 = some e
  | [], h => by simp [parseItems] at h
  | item :: items, h => by
    rcases hfi : f item with ⟨x, _ | err⟩
    · simp only [parseItems, hfi] at h
      cases hp : parseItems f items with
      | error e2 =>
        rw [hp] at h
        simp at h
        subst h
        exact parseItems_error f e2 items hp
      | ok vs => rw [hp] at h; simp at h
    · simp only [parseItems, hfi] at h
      simp at h
      exact ⟨item, by rw [hfi, h]⟩

theorem ParseUint_err (s : Str) (e : GoError) (h : (ParseUint s).2 = some e) :
    isNumError e = true := by
  unfold ParseUint at h
  split at h
  · simp at h
  · simp at h; subst h; rfl

theorem ParseInt_err (s : Str) (e : GoError) (h : (ParseInt s).2 = some e) :
    isNumError e = true := by
  cases s with
  | nil => simp [ParseInt] at h; subst h; rfl
  | cons c cs =>
    simp only [ParseInt] at h
    rcases hb : parseUintCore (if c = '+' ∨ c = '-' then cs else c :: cs) with ⟨un, _ | ek⟩
    · rw [hb] at h
      simp only at h
      split_ifs at h <;> simp at h <;> (subst h; rfl)
    · cases ek with
      | ErrSyntax => rw [hb] at h; simp at h; subst h; rfl
      | ErrRange =>
        rw [hb] at h
        simp only at h
        split_ifs at h <;> simp at h <;> (subst h; rfl)

theorem ParseFloat_err (L : Lib) (s : Str) (e : GoError) (h : (ParseFloat L s).2 = some e) :
    isNumError e = true := by
  unfold ParseFloat at h
  split at h
  · simp at h
  · simp at h; subst h; rfl

theorem parseSlice_eq_items (L : Lib) (k : Kind) (hk : sliceElemSupported k = true)
    (old : Value) (v : Str) :
    parseSlice L false k old v =
      match parseItems (itemParser L k) (splitComma v) with
      | .error err => (old, .returned (some err))
      | .ok s => (.slice s, .returned none) := by
  cases k <;> simp [sliceElemSupported] at hk <;>
    simp only [parseSlice, assign, itemParser] <;>
    (split <;> simp_all)

theorem setField_eq_item (L : Lib) (k : Kind) (hk : sliceElemSupported k = true) (seg : Str) :
    setField L false (.basic k) (zeroValue (.basic k)) seg =
      (if (itemParser L k seg).2 = none then .scalar (itemParser L k seg).1
        else zeroValue (.basic k), .returned (itemParser L k seg).2) := by
  cases k <;> simp [sliceElemSupported] at hk <;>
    simp only [setField, assign, itemParser] <;>
    first
      | rfl
      | (rcases ParseInt seg with ⟨x, _ | e⟩ <;> simp <;> done)
      | (rcases ParseUint seg with ⟨x, _ | e⟩ <;> simp <;> done)
      | (rcases ParseFloat L seg with ⟨x, _ | e⟩ <;> simp)

theorem itemParser_err (L : Lib) (k : Kind) (seg : Str) (e : GoError)
    (h : (itemParser L k seg).2 = some e) : isNumError e = true := by
  cases k <;> simp only [itemParser] at h <;>
    first
      | exact ParseInt_err seg e h
      | exact ParseUint_err seg e h
      | exact ParseFloat_err L seg e h
      | simp at h

/-! ## Derived keys, zero records and Load -/

theorem mem_replaceAll (m : Str → Option (Nat × Nat)) (x : Char) :
    ∀ (s : Str) (k : Nat), x ∈ replaceAll m k s → x ∈ s ∨ x = '_' := by
  intro s
  induction s with
  | nil => intro k h; simp [replaceAll] at h
  | cons c rest ih =>
    intro k h
    cases k with
    | succ k =>
      simp only [replaceAll] at h
      rcases ih k h with h | h
      · exact Or.inl (List.mem_cons_of_mem _ h)
      · exact Or.inr h
    | zero =>
      cases hm : m (c :: rest) with
      | none =>
        rw [replaceAll_none hm] at h
        rcases List.mem_cons.mp h with h | h
        · exact Or.inl (by simp [h])
        · rcases ih 0 h with h | h
          · exact Or.inl (List.mem_cons_of_mem _ h)
          · exact Or.inr h
      | some n =>
        obtain ⟨n1, n2⟩ := n
        simp only [replaceAll, hm, List.mem_append, List.mem_cons] at h
        rcases h with (h | h | h) | h
        · exact Or.inl (List.mem_of_mem_take h)
        · exact Or.inr h
        · exact Or.inl (List.mem_of_mem_take (List.mem_of_mem_drop h))
        · rcases ih _ h with h | h
          · exact Or.inl (List.mem_cons_of_mem _ h)
          · exact Or.inr h

theorem toLowerRune_alnum (L : Lib) (c : Char) (h : isAlnum c = true) :
    isLowerOrDigit (toLowerRune L c) = true := by
  by_cases hu : isUpperAZ c = true
  · have hc := Char.ofNat_toNat c
    have hb : 65 ≤ c.toNat ∧ c.toNat ≤ 90 := by simpa [isUpperAZ] using hu
    generalize c.toNat = n at hc hb
    subst hc
    obtain ⟨h1, h2⟩ := hb
    interval_cases n <;> rfl
  · have hld : isLowerOrDigit c = true := by
      simp only [isAlnum, Bool.or_eq_true] at h
      simp only [isLowerOrDigit, Bool.or_eq_true]
      tauto
    have h128 : c.toNat < 128 := by
      simp only [isLowerOrDigit, isLowerAZ, isDigit09, Bool.or_eq_true, Bool.and_eq_true,
        decide_eq_true_eq] at hld
      omega
    simp [toLowerRune, hu, h128, hld]

/-- The runes of a derived key: lower-case letters, digits and underscores. -/
theorem normalizeKey_runes (L : Lib) (s : Str) (hs : ∀ c ∈ s, isAlnum c = true) :
    ∀ y ∈ normalizeKey L s, isLowerOrDigit y = true ∨ y = '_' := by
  intro y hy
  simp only [normalizeKey, ToLower, List.mem_map] at hy
  obtain ⟨x, hx, rfl⟩ := hy
  rcases mem_replaceAll _ x _ 0 hx with hx | hx
  · rcases mem_replaceAll _ x _ 0 hx with hx | hx
    · exact Or.inl (toLowerRune_alnum L x (hs x hx))
    · subst hx; exact Or.inr (toLowerRune_underscore L)
  · subst hx; exact Or.inr (toLowerRune_underscore L)

theorem replaceAll_firstCap_id : ∀ t : Str, (∀ c ∈ t, isUpperAZ c = false) →
    replaceAll matchFirstCap 0 t = t
  | [], _ => rfl
  | c :: rest, h => by
    have ih := replaceAll_firstCap_id rest (fun x hx => h x (by simp [hx]))
    have hn : matchFirstCap (c :: rest) = none := by
      apply matchFirstCap_none_of
      rintro ⟨u, l, tail, rfl, hu, _⟩
      have := h u (by simp)
      simp [hu] at this
    rw [replaceAll_none hn, ih]

theorem replaceAll_allCap_id : ∀ t : Str, (∀ c ∈ t, isUpperAZ c = false) →
    replaceAll matchAllCap 0 t = t
  | [], _ => rfl
  | [a], _ => by rw [replaceAll_none (by simp [matchAllCap])]; rfl
  | a :: b :: rest, h => by
    have ih := replaceAll_allCap_id (b :: rest) (fun x hx => h x (by simp [hx]))
    have hn : matchAllCap (a :: b :: rest) = none := by
      simp [matchAllCap, h b (by simp)]
    rw [replaceAll_none hn, ih]

theorem normalizeKey_fixed (L : Lib) (t : Str)
    (ht : ∀ y ∈ t, isLowerOrDigit y = true ∨ y = '_') : normalizeKey L t = t := by
  have hup : ∀ c ∈ t, isUpperAZ c = false := by
    intro c hc
    rcases ht c hc with h | h
    · cases hu : isUpperAZ c
      · rfl
      · rw [upper_not_lowerOrDigit hu] at h; cases h
    · subst h; decide
  have hlow : ∀ c ∈ t, toLowerRune L c = c := by
    intro c hc
    have h128 : c.toNat < 128 := by
      rcases ht c hc with h | h
      · simp only [isLowerOrDigit, isLowerAZ, isDigit09, Bool.or_eq_true, Bool.and_eq_true,
          decide_eq_true_eq] at h
        omega
      · subst h; decide
    simp [toLowerRune, hup c hc, h128]
  simp only [normalizeKey, replaceAll_firstCap_id t hup, replaceAll_allCap_id t hup, ToLower]
  have hmap : List.map (toLowerRune L) t = List.map id t := List.map_congr_left hlow
  rw [hmap, List.map_id]

theorem zeroRecord_get : ∀ (s : Shape) (path : List Nat) (chain : List FieldInfo)
    (t : LeafType), s.resolve path = some (chain, t) →
    (zeroRecord s).get path = some (zeroValue t) := by
  intro s
  induction s with
  | done => intro path chain t h; simp [Shape.resolve] at h
  | leaf f t0 rest ih =>
    intro path chain t h
    rcases path with _ | ⟨_ | i, ps⟩
    · simp [Shape.resolve] at h
    · cases ps with
      | nil =>
        simp [Shape.resolve] at h
        simp [zeroRecord, Record.get, h.2]
      | cons _ _ => simp [Shape.resolve] at h
    · simp only [Shape.resolve] at h
      simpa [zeroRecord, Record.get] using ih (i :: ps) chain t h
  | nested f fields rest ihf ihr =>
    intro path chain t h
    rcases path with _ | ⟨_ | i, ps⟩
    · simp [Shape.resolve] at h
    · simp only [Shape.resolve, Option.map_eq_some'] at h
      obtain ⟨⟨ch, t1⟩, h1, h2⟩ := h
      simp at h2
      obtain ⟨rfl, rfl⟩ := h2
      simpa [zeroRecord, Record.get] using ihf ps ch t1 h1
    · simp only [Shape.resolve] at h
      simpa [zeroRecord, Record.get] using ihr (i :: ps) chain t h

theorem getEnv_eq_nil_iff (L : Lib) (env : Env) (k : Str) :
    getEnv L env k = [] ↔ (env (ToUpper L k) = none ∨ env (ToUpper L k) = some []) := by
  unfold getEnv osGetenv
  cases env (ToUpper L k) <;> simp

theorem Load_record (L : Lib) (env : Env) (T : Shape) (e : Option GoError)
    (h : (parse L env false [] T (zeroRecord T)).exit = .returned e) :
    Load L env (.record T) = ⟨(parse L env false [] T (zeroRecord T)).queried,
      .returned (some (parse L env false [] T (zeroRecord T)).record) e⟩ := by
  simp only [Load, h]

theorem Load_returned (L : Lib) (env : Env) (T : Shape) (r : Record) (e : Option GoError)
    (h : (Load L env (.record T)).result = .returned (some r) e) :
    r = (parse L env false [] T (zeroRecord T)).record ∧
      (parse L env false [] T (zeroRecord T)).exit = .returned e := by
  simp only [Load] at h
  split at h
  · next err hexit =>
    simp at h
    rw [hexit]
    exact ⟨h.1.symm, by rw [h.2]⟩
  · simp at h

/-! ## The claims -/

/-- C1. For a record type with exported fields only, if every leaf whose lookup value is
non-empty is coerced without error by `setField`, then `Load` returns a record and no
error, and each leaf of that record holds the content `setField` gives for the value of
the upper-cased key of the leaf when that value is non-empty, and its zero value
otherwise. -/
theorem C1_load_binds_every_leaf (L : Lib) (env : Env) (T : Shape)
    (hexp : T.all (isExported L) = true)
    (hco : ∀ path chain t, T.resolve path = some (chain, t) →
      osGetenv env (ToUpper L (chainKey L [] chain)) ≠ [] →
      (setField L false t (zeroValue t) (osGetenv env (ToUpper L (chainKey L [] chain)))).2
        = .returned none) :
    ∃ r, (Load L env (.record T)).result = .returned (some r) none ∧
      ∀ path chain t, T.resolve path = some (chain, t) →
        r.get path = some
          (if osGetenv env (ToUpper L (chainKey L [] chain)) = [] then zeroValue t
            else (setField L false t (zeroValue t)
              (osGetenv env (ToUpper L (chainKey L [] chain)))).1) := by
  have h := parse_ok L env T [] hexp hco
  refine ⟨(parse L env false [] T (zeroRecord T)).record, ?_, h.2⟩
  rw [Load_record L env T none h.1]

set_option maxRecDepth 100000 in
theorem C1_load_binds_every_leaf_witness :
    ∃ r, (Load asciiLib smallEnv (.record smallConfig)).result = .returned (some r) none ∧
      ∀ path chain t, smallConfig.resolve path = some (chain, t) →
        r.get path = some
          (if osGetenv smallEnv (ToUpper asciiLib (chainKey asciiLib [] chain)) = []
            then zeroValue t
            else (setField asciiLib false t (zeroValue t)
              (osGetenv smallEnv (ToUpper asciiLib (chainKey asciiLib [] chain)))).1) :=
  C1_load_binds_every_leaf asciiLib smallEnv smallConfig (by decide) (by
    intro path chain t h hne
    rcases path with _ | ⟨_ | _ | _ | i, ps⟩
    · simp [smallConfig, Shape.resolve] at h
    · rcases ps with _ | ⟨_ | j, qs⟩
      · simp [smallConfig, Shape.resolve] at h
      · cases qs with
        | nil =>
          simp [smallConfig, Shape.resolve] at h
          obtain ⟨rfl, rfl⟩ := h
          decide
        | cons _ _ => simp [smallConfig, Shape.resolve] at h
      · simp [smallConfig, Shape.resolve] at h
    · cases ps with
      | nil =>
        simp [smallConfig, Shape.resolve] at h
        obtain ⟨rfl, rfl⟩ := h
        exact (hne (by decide)).elim
      | cons _ _ => simp [smallConfig, Shape.resolve] at h
    · cases ps with
      | nil =>
        simp [smallConfig, Shape.resolve] at h
        obtain ⟨rfl, rfl⟩ := h
        decide
      | cons _ _ => simp [smallConfig, Shape.resolve] at h
    · simp [smallConfig, Shape.resolve] at h)

theorem resolve_mem_leafChains : ∀ (s : Shape) (path : List Nat) (chain : List FieldInfo)
    (t : LeafType), s.resolve path = some (chain, t) → chain ∈ s.leafChains := by
  intro s
  induction s with
  | done => intro path chain t h; simp [Shape.resolve] at h
  | leaf f t0 rest ih =>
    intro path chain t h
    rcases path with _ | ⟨_ | i, ps⟩
    · simp [Shape.resolve] at h
    · cases ps with
      | nil =>
        simp [Shape.resolve] at h
        simp [Shape.leafChains, h.1.symm]
      | cons _ _ => simp [Shape.resolve] at h
    · simp only [Shape.resolve] at h
      exact List.mem_cons_of_mem _ (ih (i :: ps) chain t h)
  | nested f fields rest ihf ihr =>
    intro path chain t h
    rcases path with _ | ⟨_ | i, ps⟩
    · simp [Shape.resolve] at h
    · simp only [Shape.resolve, Option.map_eq_some'] at h
      obtain ⟨⟨ch, t1⟩, h1, h2⟩ := h
      simp at h2
      obtain ⟨rfl, rfl⟩ := h2
      simp only [Shape.leafChains, List.mem_append, List.mem_map]
      exact Or.inl ⟨ch, ihf ps ch t1 h1, rfl⟩
    · simp only [Shape.resolve] at h
      simp only [Shape.leafChains, List.mem_append]
      exact Or.inr (ihr (i :: ps) chain t h)

/-- C2. For a record type whose fields have non-empty names, the names `Load` passes to
`os.Getenv` are, in order, the keys of the leaves taken depth first, each key being the
upper-casing of the segments of the fields from the root to the leaf joined by `__`
(no leading separator), where the segment of a field is its `env` tag when that is
non-empty and `normalizeKey` of its name otherwise; the walk stops early only on a
failure, and when `Load` returns no error every leaf has been queried. The chains
enumerated are those of the leaves the record type has. -/
theorem C2_queried_keys (L : Lib) (env : Env) (T : Shape)
    (hn : T.all (fun f => decide (f.Name ≠ [])) = true) :
    (Load L env (.record T)).queried
        <+: T.leafChains.map (fun ch => ToUpper L (joinSegs (ch.map (tagValue L)))) ∧
      (∀ r, (Load L env (.record T)).result = .returned r none →
        (Load L env (.record T)).queried
          = T.leafChains.map (fun ch => ToUpper L (joinSegs (ch.map (tagValue L))))) ∧
      (∀ path chain t, T.resolve path = some (chain, t) → chain ∈ T.leafChains) := by
  have hkeys : T.leafChains.map (fun ch => ToUpper L (chainKey L [] ch))
      = T.leafChains.map (fun ch => ToUpper L (joinSegs (ch.map (tagValue L)))) := by
    apply List.map_congr_left
    intro ch hch
    obtain ⟨f, rest, rfl, hf⟩ := leafChains_head _ T hn ch hch
    rw [chainKey_root L f rest (by simpa using hf)]
  have hq := parse_queried L env T false []
  rw [hkeys] at hq
  have hload : (Load L env (.record T)).queried
      = (parse L env false [] T (zeroRecord T)).queried := by
    simp only [Load]
    split <;> rfl
  rw [hload]
  refine ⟨hq.1, ?_, resolve_mem_leafChains T⟩
  intro r hr
  apply hq.2
  simp only [Load] at hr
  split at hr
  · next err hexit =>
    simp at hr
    rw [hexit, hr.2]
  · simp at hr

theorem C2_queried_keys_witness :
    (Load asciiLib (envOf []) (.record dbConfig)).queried
        <+: dbConfig.leafChains.map
          (fun ch => ToUpper asciiLib (joinSegs (ch.map (tagValue asciiLib)))) ∧
      (∀ r, (Load asciiLib (envOf []) (.record dbConfig)).result = .returned r none →
        (Load asciiLib (envOf []) (.record dbConfig)).queried
          = dbConfig.leafChains.map
            (fun ch => ToUpper asciiLib (joinSegs (ch.map (tagValue asciiLib))))) ∧
      (∀ path chain t, dbConfig.resolve path = some (chain, t) →
        chain ∈ dbConfig.leafChains) :=
  C2_queried_keys asciiLib (envOf []) dbConfig (by decide)

/-- The record type `{Database{Host string}}` queries `DATABASE__HOST`, and `DB__HOST`
once the outer key is overridden to `db`. -/
theorem queried_nested_examples :
    (Load asciiLib (envOf []) (.record
        (.nested (fld "Database" "") (.leaf (fld "Host" "") (.basic .String) .done)
          .done))).queried = ["DATABASE__HOST".toList] ∧
      (Load asciiLib (envOf []) (.record dbConfig)).queried = ["DB__HOST".toList] := by
  decide

/-- C3. For every name over `[A-Za-z0-9]`, `normalizeKey` gives the lower-cased name with
exactly one underscore before each position `i` with `0 < i`, `s[i]` an upper-case letter
and either `s[i+1]` a lower-case letter or `s[i-1]` a lower-case letter or a digit, and
no underscore anywhere else. -/
theorem C3_normalizeKey_rule (L : Lib) (s : Str) (hs : ∀ c ∈ s, isAlnum c = true) :
    normalizeKey L s = snakeCase L s :=
  normalizeKey_eq_snakeCase L s hs

theorem C3_normalizeKey_rule_witness :
    (∀ c ∈ "HTTPServer".toList, isAlnum c = true) ∧
      normalizeKey asciiLib "HTTPServer".toList = snakeCase asciiLib "HTTPServer".toList :=
  ⟨by decide, C3_normalizeKey_rule asciiLib "HTTPServer".toList (by decide)⟩

/-- The names quoted by the specification and their derived keys. -/
theorem normalizeKey_examples :
    normalizeKey asciiLib "GracefulShutdown".toList = "graceful_shutdown".toList ∧
      normalizeKey asciiLib "OrderManagement".toList = "order_management".toList ∧
      normalizeKey asciiLib "HTTPServer".toList = "http_server".toList := by
  decide

/-- C4. For every name over `[A-Za-z0-9]`, deriving the key again from the derived key
gives the same key. -/
theorem C4_normalizeKey_idempotent (L : Lib) (s : Str) (hs : ∀ c ∈ s, isAlnum c = true) :
    normalizeKey L (normalizeKey L s) = normalizeKey L s :=
  normalizeKey_fixed L _ (normalizeKey_runes L s hs)

theorem C4_normalizeKey_idempotent_witness :
    (∀ c ∈ "OrderManagement2".toList, isAlnum c = true) ∧
      normalizeKey asciiLib (normalizeKey asciiLib "OrderManagement2".toList)
        = normalizeKey asciiLib "OrderManagement2".toList :=
  ⟨by decide, C4_normalizeKey_idempotent asciiLib "OrderManagement2".toList (by decide)⟩

/-- C5. A leaf, of any kind and exported or not, whose upper-cased key is absent from the
lookup or maps to the empty string still holds its zero value in the record `Load`
returns, whatever happens at the other leaves; and when that is so for every leaf, `Load`
returns the all-zero record and no error. -/
theorem C5_absent_leaf_keeps_zero (L : Lib) (env : Env) (T : Shape) :
    (∀ path chain t r e, T.resolve path = some (chain, t) →
      (env (ToUpper L (chainKey L [] chain)) = none
        ∨ env (ToUpper L (chainKey L [] chain)) = some []) →
      (Load L env (.record T)).result = .returned (some r) e →
      r.get path = some (zeroValue t)) ∧
    ((∀ path chain t, T.resolve path = some (chain, t) →
      (env (ToUpper L (chainKey L [] chain)) = none
        ∨ env (ToUpper L (chainKey L [] chain)) = some [])) →
      (Load L env (.record T)).result = .returned (some (zeroRecord T)) none) := by
  constructor
  · intro path chain t r e hres habs hload
    obtain ⟨rfl, _⟩ := Load_returned L env T r e hload
    rw [parse_frame L env T false [] (zeroRecord T) path chain t hres
      ((getEnv_eq_nil_iff L env _).mpr habs)]
    exact zeroRecord_get T path chain t hres
  · intro hall
    have h := parse_all_empty L env T false [] (zeroRecord T)
      (fun path chain t hres => (getEnv_eq_nil_iff L env _).mpr (hall path chain t hres))
    rw [Load_record L env T none h.2, h.1]

theorem C5_absent_leaf_keeps_zero_witness :
    (envOf [] (ToUpper asciiLib (chainKey asciiLib [] [fld "Port" ""])) = none
      ∨ envOf [] (ToUpper asciiLib (chainKey asciiLib [] [fld "Port" ""])) = some []) ∧
    (Load asciiLib (envOf []) (.record portConfig)).result
      = .returned (some (.leaf (.scalar (.uint 0)) .done)) none ∧
    (Record.leaf (.scalar (.uint 0)) .done).get [0] = some (zeroValue (.basic .Uint)) :=
  ⟨by decide, by decide,
    (C5_absent_leaf_keeps_zero asciiLib (envOf []) portConfig).1 [0] [fld "Port" ""]
      (.basic .Uint) (.leaf (.scalar (.uint 0)) .done) none (by decide) (by decide)
      (by decide)⟩

/-- C6. A well-formed token outside the range of a narrow field is not refused: `300` is
stored in a uint8 field as 44, `200` in an int8 field as -56 and `65536` in a uint16 field
as 0, each time without an error. -/
theorem C6_narrow_field_wraps :
    setField asciiLib false (.basic .Uint8) (zeroValue (.basic .Uint8)) "300".toList
        = (.scalar (.uint 44), .returned none) ∧
      setField asciiLib false (.basic .Int8) (zeroValue (.basic .Int8)) "200".toList
        = (.scalar (.int (-56)), .returned none) ∧
      setField asciiLib false (.basic .Uint16) (zeroValue (.basic .Uint16)) "65536".toList
        = (.scalar (.uint 0), .returned none) := by
  decide

theorem parseUintCore_overflow (ds : Str) (hd : ∀ c ∈ ds, isDigit09 c = true)
    (hv : decimalValue ds > 2 ^ 64 - 1) :
    parseUintCore ds = (maxUint64, some .ErrRange) := by
  have hne : ds ≠ [] := by
    rintro rfl
    simp [decimalValue, valueFrom] at hv
  unfold parseUintCore
  rw [if_neg hne, parseUintLoop_digits ds 0 hd (by norm_num), if_neg]
  unfold decimalValue at hv
  omega

/-- C7. For every unsigned integer field and every string of decimal digits whose value
exceeds 2^64 - 1, `setField` returns a range error and leaves the field as it was. -/
theorem C7_uint_overflow_is_error (L : Lib) (ro : Bool) (k : Kind) (old : Value) (ds : Str)
    (hk : k = .Uint8 ∨ k = .Uint16 ∨ k = .Uint32 ∨ k = .Uint64 ∨ k = .Uint)
    (hd : ∀ c ∈ ds, isDigit09 c = true) (hv : decimalValue ds > 2 ^ 64 - 1) :
    setField L ro (.basic k) old ds
      = (old, .returned (some (.numError "ParseUint" ds .ErrRange))) := by
  have h := parseUintCore_overflow ds hd hv
  rcases hk with rfl | rfl | rfl | rfl | rfl <;> simp [setField, ParseUint, h]

theorem C7_uint_overflow_is_error_witness :
    (∀ c ∈ "99999999999999999999".toList, isDigit09 c = true) ∧
      decimalValue "99999999999999999999".toList > 2 ^ 64 - 1 ∧
      setField asciiLib false (.basic .Uint8) (.scalar (.uint 7)) "99999999999999999999".toList
        = (.scalar (.uint 7),
          .returned (some (.numError "ParseUint" "99999999999999999999".toList .ErrRange))) :=
  ⟨by decide, by decide,
    C7_uint_overflow_is_error asciiLib false .Uint8 (.scalar (.uint 7))
      "99999999999999999999".toList (Or.inl rfl) (by decide) (by decide)⟩

/-- C8, as stated, fails for booleans: the scalar coercer reads `true,false` segment by
segment as `[true, false]`, while `parseSlice` refuses a list of booleans. -/
theorem C8_bool_list_unsupported :
    coerceList asciiLib .Bool "true,false".toList
        = .ok [.scalar (.bool true), .scalar (.bool false)] ∧
      parseSlice asciiLib false .Bool (zeroValue (.slice .Bool)) "true,false".toList
        = (zeroValue (.slice .Bool),
          .returned (some (.errorf "unsupported slice type bool"))) :=
  ⟨rfl, by decide⟩

/-- C8, amended. For every list field whose element kind is string, a signed or unsigned
integer kind or a floating-point kind, `parseSlice` agrees with applying the scalar
coercer to each comma-separated segment: it fails with the error of the first segment
that fails, it succeeds when every segment coerces and then holds the coerced segments
in order, and it never reports an unsupported slice type; a list of booleans is refused
with the error `unsupported slice type bool`, whatever the value. -/
theorem C8_parseSlice_refines_scalar (L : Lib) (k : Kind) (old : Value) (v : Str)
    (hk : sliceElemSupported k = true) :
    (∀ e, coerceList L k v = .error e →
      parseSlice L false k old v = (old, .returned (some e))) ∧
    (∀ vs, coerceList L k v = .ok vs →
      ∃ xs, vs = xs.map Value.scalar ∧
        parseSlice L false k old v = (.slice xs, .returned none)) ∧
    (parseSlice L false k old v).2
      ≠ .returned (some (.errorf ("unsupported slice type " ++ kindName k))) ∧
    parseSlice L false .Bool old v
      = (old, .returned (some (.errorf "unsupported slice type bool"))) := by
  have hbool : parseSlice L false .Bool old v
      = (old, .returned (some (.errorf "unsupported slice type bool"))) := rfl
  have hrel := coerceSegments_eq L k (itemParser L k) (setField_eq_item L k hk) (splitComma v)
  have hps := parseSlice_eq_items L k hk old v
  unfold coerceList
  cases hp : parseItems (itemParser L k) (splitComma v) with
  | error err =>
    rw [hp] at hrel hps
    simp only at hrel hps
    refine ⟨?_, ?_, ?_, hbool⟩
    · intro e he
      rw [hrel] at he
      cases he
      exact hps
    · intro vs hvs
      rw [hrel] at hvs
      cases hvs
    · rw [hps]
      obtain ⟨item, hitem⟩ := parseItems_error _ err _ hp
      have hnum := itemParser_err L k item err hitem
      intro hc
      simp at hc
      rw [hc] at hnum
      cases hnum
  | ok xs =>
    rw [hp] at hrel hps
    simp only at hrel hps
    refine ⟨?_, ?_, ?_, hbool⟩
    · intro e he
      rw [hrel] at he
      cases he
    · intro vs hvs
      rw [hrel] at hvs
      cases hvs
      exact ⟨xs, rfl, hps⟩
    · rw [hps]
      simp

theorem C8_parseSlice_refines_scalar_witness :
    sliceElemSupported .Int = true ∧
      ((∀ e, coerceList asciiLib .Int "1,,3".toList = .error e →
        parseSlice asciiLib false .Int (.slice []) "1,,3".toList
          = (.slice [], .returned (some e))) ∧
      (∀ vs, coerceList asciiLib .Int "1,,3".toList = .ok vs →
        ∃ xs, vs = xs.map Value.scalar ∧
          parseSlice asciiLib false .Int (.slice []) "1,,3".toList
            = (.slice xs, .returned none)) ∧
      (parseSlice asciiLib false .Int (.slice []) "1,,3".toList).2
        ≠ .returned (some (.errorf ("unsupported slice type " ++ kindName .Int))) ∧
      parseSlice asciiLib false .Bool (.slice []) "1,,3".toList
        = (.slice [], .returned (some (.errorf "unsupported slice type bool")))) :=
  ⟨by decide, C8_parseSlice_refines_scalar asciiLib .Int (.slice []) "1,,3".toList (by decide)⟩

/-- C9. For every non-empty sequence of 64-bit signed integers, binding a list field
whose elements are 64-bit signed integers to their base-10 renderings joined by commas
succeeds and assigns exactly that sequence. -/
theorem C9_int_list_roundtrip (L : Lib) (k : Kind) (old : Value) (xs : List Int)
    (hk : k = .Int64 ∨ k = .Int) (hne : xs ≠ [])
    (hr : ∀ x ∈ xs, -(2 : Int) ^ 63 ≤ x ∧ x < (2 : Int) ^ 63) :
    parseSlice L false k old (joinComma (xs.map formatInt))
      = (.slice (xs.map Scalar.int), .returned none) :=
  parseSlice_int64 L k hk old xs hne hr

theorem C9_int_list_roundtrip_witness :
    joinComma ([1, 2, 3].map formatInt) = "1,2,3".toList ∧
      parseSlice asciiLib false .Int (.slice []) (joinComma ([1, 2, 3].map formatInt))
        = (.slice ([1, 2, 3].map Scalar.int), .returned none) :=
  ⟨by decide,
    C9_int_list_roundtrip asciiLib .Int (.slice []) [1, 2, 3] (Or.inr rfl) (by decide)
      (by decide)⟩

/-- C10. For a list field of strings and every value, `parseSlice` assigns exactly the
segments of the value between its commas, untrimmed and with empty segments kept: one
more element than there are commas, and joining them with commas gives the value back;
conversely a non-empty list of comma-free strings joined by commas is assigned as that
list. -/
theorem C10_string_list_split (L : Lib) (old : Value) (v : Str) :
    parseSlice L false .String old v
        = (.slice ((splitComma v).map Scalar.str), .returned none) ∧
      (splitComma v).length = v.count ',' + 1 ∧
      joinComma (splitComma v) = v ∧
      (∀ xs : List Str, xs ≠ [] → (∀ x ∈ xs, ∀ c ∈ x, c ≠ ',') →
        parseSlice L false .String old (joinComma xs)
          = (.slice (xs.map Scalar.str), .returned none)) := by
  have hps : ∀ w : Str, parseSlice L false .String old w
      = (.slice ((splitComma w).map Scalar.str), .returned none) := by
    intro w
    simp [parseSlice, parseItems_total, assign]
  refine ⟨hps v, splitComma_length v, joinComma_splitComma v, ?_⟩
  intro xs hne hx
  rw [hps, splitComma_joinComma xs hne hx]

theorem C10_string_list_split_witness :
    parseSlice asciiLib false .String (.slice []) "a,, b,".toList
        = (.slice [.str "a".toList, .str [], .str " b".toList, .str []], .returned none) ∧
      ["one".toList, "two".toList] ≠ [] ∧
      (∀ x ∈ ["one".toList, "two".toList], ∀ c ∈ x, c ≠ ',') ∧
      parseSlice asciiLib false .String (.slice []) (joinComma ["one".toList, "two".toList])
        = (.slice (["one".toList, "two".toList].map Scalar.str), .returned none) :=
  ⟨by decide, by decide, by decide,
    (C10_string_list_split asciiLib (.slice []) []).2.2.2 ["one".toList, "two".toList]
      (by decide) (by decide)⟩

/-! ## Lists with empty segments, failures and round trips -/

theorem splitComma_append : ∀ (a b : Str),
    splitComma (a ++ ',' :: b) = splitComma a ++ splitComma b
  | [], b => by simp [splitComma]
  | c :: a, b => by
    have ih := splitComma_append a b
    by_cases hc : c = ','
    · subst hc
      simp [splitComma, ih]
    · obtain ⟨h, t, ht, hs⟩ := splitComma_cons_of_ne c a hc
      rw [hs, List.cons_append, splitComma]
      simp [hc, ih, ht]

theorem nil_mem_splitComma_nil : ([] : Str) ∈ splitComma [] := by simp [splitComma]

theorem nil_mem_splitComma_of_empty_segment (v : Str) (h : hasEmptySegment v) :
    ([] : Str) ∈ splitComma v := by
  rcases h with h | h | h
  · cases v with
    | nil => simp at h
    | cons c cs =>
      simp at h
      subst h
      simp [splitComma]
  · obtain ⟨a, rfl⟩ : ∃ a, v = a ++ [','] := by
      rcases List.eq_nil_or_concat v with rfl | ⟨a, c, rfl⟩
      · simp at h
      · rw [List.concat_eq_append] at h ⊢
        simp at h
        exact ⟨a, by rw [h]⟩
    rw [splitComma_append]
    simp [splitComma]
  · obtain ⟨a, b, rfl⟩ := h
    have : a ++ [',', ','] ++ b = a ++ ',' :: (',' :: b) := by simp
    rw [this, splitComma_append]
    simp [splitComma]

theorem parseItems_fails (f : Str → Scalar × Option GoError) :
    ∀ items : List Str, (∃ x ∈ items, (f x).2 ≠ none) → ∃ e, parseItems f items = .error e
  | [], h => by simp at h
  | item :: items, h => by
    rcases hfi : f item with ⟨x, _ | err⟩
    · have hrest : ∃ y ∈ items, (f y).2 ≠ none := by
        obtain ⟨y, hy, hne⟩ := h
        rcases List.mem_cons.mp hy with rfl | hy
        · rw [hfi] at hne; exact absurd rfl hne
        · exact ⟨y, hy, hne⟩
      obtain ⟨e, he⟩ := parseItems_fails f items hrest
      exact ⟨e, by simp [parseItems, hfi, he]⟩
    · exact ⟨err, by simp [parseItems, hfi]⟩

theorem itemParser_nil (L : Lib) (k : Kind) (hk : numericKind k = true) :
    (itemParser L k []).2 ≠ none := by
  cases k <;> simp [numericKind] at hk <;>
    simp [itemParser, ParseInt, ParseUint, parseUintCore, ParseFloat, L.parseFloat_nil]

theorem numericKind_supported (k : Kind) (hk : numericKind k = true) :
    sliceElemSupported k = true := by
  cases k <;> simp [numericKind] at hk <;> rfl

theorem parseSlice_ro_error (L : Lib) (ro : Bool) (k : Kind) (old : Value) (v : Str)
    (e : GoError) (h : parseSlice L false k old v = (old, .returned (some e))) :
    parseSlice L ro k old v = (old, .returned (some e)) := by
  cases ro with
  | false => exact h
  | true =>
    cases k <;> simp only [parseSlice] at h ⊢ <;>
      first
        | exact h
        | (split at h <;> simp_all [assign])

/-- C11. For every list field whose elements are signed integers, unsigned integers or
floats, and every value with an empty segment (a leading comma, a trailing comma or two
adjacent commas), `parseSlice` returns an error and leaves the field as it was: the
empty segment is neither skipped nor read as zero. -/
theorem C11_empty_segment_is_error (L : Lib) (ro : Bool) (k : Kind) (old : Value) (v : Str)
    (hk : numericKind k = true) (hv : hasEmptySegment v) :
    ∃ e, parseSlice L ro k old v = (old, .returned (some e)) := by
  have hmem := nil_mem_splitComma_of_empty_segment v hv
  obtain ⟨e, he⟩ := parseItems_fails (itemParser L k) (splitComma v)
    ⟨[], hmem, itemParser_nil L k hk⟩
  have hps := parseSlice_eq_items L k (numericKind_supported k hk) old v
  rw [he] at hps
  exact ⟨e, parseSlice_ro_error L ro k old v e hps⟩

theorem C11_empty_segment_is_error_witness :
    numericKind .Int = true ∧ hasEmptySegment "1,,3".toList ∧
      ∃ e, parseSlice asciiLib false .Int (.slice [.int 7]) "1,,3".toList
        = (.slice [.int 7], .returned (some e)) :=
  ⟨by decide, Or.inr (Or.inr ⟨['1'], ['3'], rfl⟩),
    C11_empty_segment_is_error asciiLib false .Int (.slice [.int 7]) "1,,3".toList (by decide)
      (Or.inr (Or.inr ⟨['1'], ['3'], rfl⟩))⟩

/-- The value `1,,3` is refused for a list of integers with the syntax error of the empty
segment. -/
theorem parseSlice_empty_segment_example :
    parseSlice asciiLib false .Int (.slice []) "1,,3".toList
      = (.slice [], .returned (some (.numError "ParseInt" [] .ErrSyntax))) := by
  decide

/-- C12. For every list field and every value, when `parseSlice` returns an error the
field holds exactly what it held before the call: no partly filled list is assigned. -/
theorem C12_error_leaves_field (L : Lib) (ro : Bool) (k : Kind) (old : Value) (v : Str)
    (e : GoError) (h : (parseSlice L ro k old v).2 = .returned (some e)) :
    (parseSlice L ro k old v).1 = old := by
  cases k <;> simp only [parseSlice] at h ⊢ <;>
    first
      | rfl
      | (split <;> first | rfl | (cases ro <;> simp_all [assign]))

theorem C12_error_leaves_field_witness :
    (parseSlice asciiLib false .Int (.slice [.int 7]) "1,2,x".toList).2
        = .returned (some (.numError "ParseInt" "x".toList .ErrSyntax)) ∧
      (parseSlice asciiLib false .Int (.slice [.int 7]) "1,2,x".toList).1 = .slice [.int 7] :=
  ⟨by decide,
    C12_error_leaves_field asciiLib false .Int (.slice [.int 7]) "1,2,x".toList
      (.numError "ParseInt" "x".toList .ErrSyntax) (by decide)⟩

theorem wrapInt_id (w : Nat) (hw : 0 < w) (x : Int) (hlo : -(2 : Int) ^ (w - 1) ≤ x)
    (hhi : x < (2 : Int) ^ (w - 1)) : wrapInt w x = x := by
  obtain ⟨m, rfl⟩ : ∃ m, w = m + 1 := ⟨w - 1, by omega⟩
  simp only [Nat.add_sub_cancel] at hlo hhi
  have h2 : (2 : Int) ^ (m + 1) = 2 * 2 ^ m := by rw [pow_succ]; ring
  simp only [wrapInt, Nat.add_sub_cancel, h2]
  rw [Int.emod_eq_of_lt (by omega) (by omega)]
  omega

theorem signed_range_64 (k : Kind) (x : Int) (hlo : -(2 : Int) ^ (k.bits - 1) ≤ x)
    (hhi : x < (2 : Int) ^ (k.bits - 1)) : -(2 : Int) ^ 63 ≤ x ∧ x < (2 : Int) ^ 63 := by
  have hb : k.bits = 8 ∨ k.bits = 16 ∨ k.bits = 32 ∨ k.bits = 64 := by cases k <;> simp [Kind.bits]
  rcases hb with h | h | h | h <;> rw [h] at hlo hhi <;> norm_num at hlo hhi ⊢ <;> omega

theorem bits_pos (k : Kind) : 0 < k.bits := by cases k <;> simp [Kind.bits]

theorem unsigned_range_64 (k : Kind) (n : Nat) (h : n < 2 ^ k.bits) : n < 2 ^ 64 := by
  have hb : k.bits = 8 ∨ k.bits = 16 ∨ k.bits = 32 ∨ k.bits = 64 := by cases k <;> simp [Kind.bits]
  rcases hb with h1 | h1 | h1 | h1 <;> rw [h1] at h <;> norm_num at h ⊢ <;> omega

/-- C13. For the scalar kinds with exact values, `setField` on the canonical string form
of a value stores that value and returns no error: any string for a string field, `true`
and `false` for a boolean field, the base-10 rendering (with a leading minus sign when
negative) of any integer in the range of a signed integer field, and the base-10 digits
of any number in the range of an unsigned integer field. -/
theorem C13_scalar_roundtrip (L : Lib) (old : Value) :
    (∀ s : Str, setField L false (.basic .String) old s
        = (.scalar (.str s), .returned none)) ∧
    (∀ b : Bool, setField L false (.basic .Bool) old (formatBool b)
        = (.scalar (.bool b), .returned none)) ∧
    (∀ (k : Kind) (x : Int), signedKind k = true →
      -(2 : Int) ^ (k.bits - 1) ≤ x → x < (2 : Int) ^ (k.bits - 1) →
      setField L false (.basic k) old (formatInt x) = (.scalar (.int x), .returned none)) ∧
    (∀ (k : Kind) (n : Nat), unsignedKind k = true → n < 2 ^ k.bits →
      setField L false (.basic k) old (formatUint n)
        = (.scalar (.uint n), .returned none)) := by
  refine ⟨fun s => rfl, ?_, ?_, ?_⟩
  · intro b
    cases b <;> rfl
  · intro k x hk hlo hhi
    have h64 := signed_range_64 k x hlo hhi
    have hp := ParseInt_formatInt x h64.1 h64.2
    have hw := wrapInt_id k.bits (bits_pos k) x hlo hhi
    cases k <;> simp [signedKind] at hk <;> simp only [setField, hp, assign] <;> simp [hw]
  · intro k n hk hn
    have hp := parseUintCore_formatUint n (unsigned_range_64 k n hn)
    have hw : wrapUint k.bits n = n := Nat.mod_eq_of_lt hn
    cases k <;> simp [unsignedKind] at hk <;>
      simp only [setField, ParseUint, hp, assign] <;> simp [hw]

theorem C13_scalar_roundtrip_witness :
    signedKind .Int8 = true ∧ -(2 : Int) ^ (Kind.Int8.bits - 1) ≤ -128 ∧
      (-128 : Int) < (2 : Int) ^ (Kind.Int8.bits - 1) ∧
      formatInt (-128) = "-128".toList ∧
      setField asciiLib false (.basic .Int8) (.scalar (.int 0)) (formatInt (-128))
        = (.scalar (.int (-128)), .returned none) :=
  ⟨by decide, by decide, by decide, by decide,
    (C13_scalar_roundtrip asciiLib (.scalar (.int 0))).2.2.1 .Int8 (-128) (by decide)
      (by decide) (by decide)⟩

/-- C14. For every type that is not a record type, `Load` returns a nil record and the
error `expected pointer to struct, got pointer to *T` with the name of the type, without
passing any name to `os.Getenv`; for `int` the message is
`expected pointer to struct, got pointer to *int`. -/
theorem C14_non_record_root (L : Lib) (env : Env) (typeName : String) :
    Load L env (.nonRecord typeName)
        = ⟨[], .returned none
          (some (.errorf ("expected pointer to struct, got pointer to *" ++ typeName)))⟩ ∧
      Load L env (.nonRecord "int")
        = ⟨[], .returned none
          (some (.errorf "expected pointer to struct, got pointer to *int"))⟩ :=
  ⟨rfl, rfl⟩

/-- C15. For a leaf whose kind has no case in `setField` (not string, boolean, an integer
kind handled there, a float kind or a list), `setField` returns the error
`unsupported type` followed by the kind, whatever the value, and leaves the field as it
was; and for a list whose element kind has no case in `parseSlice`, in particular a list
or a record, `parseSlice` returns `unsupported slice type` followed by the element kind,
whatever the value. -/
theorem C15_unsupported_kinds (L : Lib) (ro : Bool) (old : Value) (v : Str) :
    (∀ t : LeafType, setFieldSupported t.kind = false →
      setField L ro t old v
        = (old, .returned (some (.errorf ("unsupported type " ++ kindName t.kind))))) ∧
    (∀ k : Kind, sliceElemSupported k = false →
      parseSlice L ro k old v
        = (old, .returned (some (.errorf ("unsupported slice type " ++ kindName k))))) ∧
    parseSlice L ro .Slice old v
      = (old, .returned (some (.errorf "unsupported slice type slice"))) ∧
    parseSlice L ro .Struct old v
      = (old, .returned (some (.errorf "unsupported slice type struct"))) := by
  refine ⟨?_, ?_, rfl, rfl⟩
  · intro t ht
    cases t with
    | slice elem => simp [LeafType.kind, setFieldSupported] at ht
    | basic k => cases k <;> simp [LeafType.kind, setFieldSupported] at ht <;> rfl
  · intro k hk
    cases k <;> simp [sliceElemSupported] at hk <;> rfl

theorem C15_unsupported_kinds_witness :
    setFieldSupported (LeafType.basic .Map).kind = false ∧
      setField asciiLib false (.basic .Map) .other "a=b".toList
        = (.other, .returned (some (.errorf "unsupported type map"))) :=
  ⟨by decide,
    (C15_unsupported_kinds asciiLib false .other "a=b".toList).1 (.basic .Map) (by decide)⟩

/-! ## Panics, the first failure and the keys that matter -/

theorem setField_settable_no_panic (L : Lib) (t : LeafType) (old : Value) (v : Str)
    (msg : String) : (setField L false t old v).2 ≠ .panicked msg := by
  cases t with
  | slice k =>
    simp only [setField]
    cases k <;> simp only [parseSlice] <;>
      first
        | (split <;> simp [assign])
        | simp
  | basic k =>
    cases k <;> simp only [setField] <;>
      first
        | (split <;> simp [assign])
        | simp [assign]

/-- The walk over exported fields never panics. -/
theorem parse_exported_no_panic (L : Lib) (env : Env) : ∀ (s : Shape) (pre : Str)
    (r : Record) (msg : String), s.all (isExported L) = true →
    (parse L env false pre s r).exit ≠ .panicked msg := by
  intro s
  induction s with
  | done => intro pre r msg _; simp [parse]
  | leaf f t rest ih =>
    intro pre r msg hexp
    simp only [Shape.all, Bool.and_eq_true] at hexp
    cases r with
    | done => simp [parse]
    | nested _ _ => simp [parse]
    | leaf old r =>
      rw [parse_leaf]
      simp only [hexp.1, Bool.not_true, Bool.or_self]
      split_ifs
      · exact ih pre r msg hexp.2
      · exact ih pre r msg hexp.2
      · exact setField_settable_no_panic L t old _ msg
  | nested f fields rest ihf ihr =>
    intro pre r msg hexp
    simp only [Shape.all, Bool.and_eq_true] at hexp
    cases r with
    | done => simp [parse]
    | leaf _ _ => simp [parse]
    | nested sub r =>
      rw [parse_nested]
      simp only [hexp.1.1, Bool.not_true, Bool.false_and, Bool.or_self]
      split_ifs
      · exact ihr pre r msg hexp.2
      · exact ihf _ sub msg hexp.1.2

/-- For a record type with exported fields only, `Load` returns: it does not panic. -/
theorem Load_exported_no_panic (L : Lib) (env : Env) (T : Shape) (msg : String)
    (hexp : T.all (isExported L) = true) :
    (Load L env (.record T)).result ≠ .panicked msg := by
  have h := parse_exported_no_panic L env T [] (zeroRecord T) msg hexp
  simp only [Load]
  split
  · simp
  · next m hm =>
    intro hc
    simp at hc
    rw [hm, hc] at h
    exact h rfl

/-- C16. With an unexported field whose lookup value is present and well formed, `Load`
panics inside the setter of `reflect` instead of returning: for `{port uint}` and
`PORT=8080` the call ends in the panic of `reflect.Value.SetUint`. -/
theorem C16_unexported_field_panics :
    Load asciiLib (envOf [("PORT", "8080")]) (.record unexportedConfig)
      = ⟨["PORT".toList],
        .panicked "reflect: reflect.Value.SetUint using value obtained using unexported field"⟩ := by
  decide

theorem setField_not_ok_old (L : Lib) (ro : Bool) (t : LeafType) (old : Value) (v : Str)
    (h : (setField L ro t old v).2 ≠ .returned none) : (setField L ro t old v).1 = old := by
  cases t with
  | slice k =>
    simp only [setField] at h ⊢
    cases k <;> simp only [parseSlice] at h ⊢ <;>
      first
        | rfl
        | (split <;> first | rfl | (cases ro <;> simp_all [assign]))
  | basic k =>
    cases k <;> simp only [setField] at h ⊢ <;>
      first
        | rfl
        | (cases ro <;> simp_all [assign] <;> done)
        | (split <;> first | rfl | (cases ro <;> simp_all [assign]))

theorem pathBefore_succ (j i : Nat) (q ps : List Nat) :
    pathBefore ((j + 1) :: q) ((i + 1) :: ps) = pathBefore (j :: q) (i :: ps) := by
  simp [pathBefore]

theorem pathBefore_zero_succ (q ps : List Nat) (i : Nat) :
    pathBefore (0 :: q) ((i + 1) :: ps) = true := by
  simp [pathBefore]

theorem pathBefore_succ_zero (q ps : List Nat) (j : Nat) :
    pathBefore ((j + 1) :: q) (0 :: ps) = false := by
  simp [pathBefore]

theorem pathBefore_zero_zero (q ps : List Nat) :
    pathBefore (0 :: q) (0 :: ps) = pathBefore q ps := by
  simp [pathBefore]

/-- The walk over exported fields, when the leaf at `p0` is the first whose value is
refused: the walk returns the error of that leaf, the leaves before it are bound and the
others hold their zero values. -/
theorem parse_first_error (L : Lib) (env : Env) : ∀ (s : Shape) (pre : Str) (p0 : List Nat)
    (chain0 : List FieldInfo) (t0 : LeafType) (e : GoError),
    s.all (isExported L) = true →
    s.resolve p0 = some (chain0, t0) →
    getEnv L env (chainKey L pre chain0) ≠ [] →
    (setField L false t0 (zeroValue t0) (getEnv L env (chainKey L pre chain0))).2
      = .returned (some e) →
    (∀ p chain t, s.resolve p = some (chain, t) → pathBefore p p0 = true →
      getEnv L env (chainKey L pre chain) ≠ [] →
      (setField L false t (zeroValue t) (getEnv L env (chainKey L pre chain))).2
        = .returned none) →
    (parse L env false pre s (zeroRecord s)).exit = .returned (some e) ∧
    ∀ p chain t, s.resolve p = some (chain, t) →
      (parse L env false pre s (zeroRecord s)).record.get p =
        some (if pathBefore p p0 = true ∧ getEnv L env (chainKey L pre chain) ≠ []
          then (setField L false t (zeroValue t) (getEnv L env (chainKey L pre chain))).1
          else zeroValue t) := by
  intro s
  induction s with
  | done => intro pre p0 chain0 t0 e _ h0; simp [Shape.resolve] at h0
  | leaf f t1 rest ih =>
    intro pre p0 chain0 t0 e hexp h0 hv0 he hbefore
    simp only [Shape.all, Bool.and_eq_true] at hexp
    rw [zeroRecord, parse_leaf]
    simp only [hexp.1, Bool.not_true, Bool.or_self]
    rcases p0 with _ | ⟨_ | i, ps⟩
    · simp [Shape.resolve] at h0
    · cases ps with
      | cons _ _ => simp [Shape.resolve] at h0
      | nil =>
        simp [Shape.resolve] at h0
        obtain ⟨rfl, rfl⟩ := h0
        simp only [chainKey, List.foldl_cons, List.foldl_nil] at hv0 he
        have hne : (setField L false t1 (zeroValue t1)
            (getEnv L env (buildKey pre (tagValue L f)))).2 ≠ .returned none := by
          rw [he]; simp
        rw [if_neg hv0, if_neg hne]
        refine ⟨he, ?_⟩
        intro p chain t h
        rcases p with _ | ⟨_ | j, qs⟩
        · simp [Shape.resolve] at h
        · cases qs with
          | cons _ _ => simp [Shape.resolve] at h
          | nil =>
            simp [Shape.resolve] at h
            obtain ⟨rfl, rfl⟩ := h
            simp [Record.get, pathBefore, setField_not_ok_old L false _ _ _ hne]
        · simp only [Shape.resolve] at h
          simp [Record.get, pathBefore, zeroRecord_get rest (j :: qs) chain t h]
    · simp only [Shape.resolve] at h0
      have hrest := ih pre (i :: ps) chain0 t0 e hexp.2 h0 hv0 he (fun p chain t h hb => by
        rcases p with _ | ⟨j, qs⟩
        · cases rest <;> simp [Shape.resolve] at h
        · exact hbefore ((j + 1) :: qs) chain t (by simpa [Shape.resolve] using h)
            (by rw [pathBefore_succ]; exact hb))
      have hhead := hbefore [0] [f] t1 (by simp [Shape.resolve]) (pathBefore_zero_succ _ _ _)
      simp only [chainKey, List.foldl_cons, List.foldl_nil] at hhead
      have hget : ∀ p chain t, (Shape.leaf f t1 rest).resolve p = some (chain, t) →
          ∀ v0 : Value,
          v0 = (if getEnv L env (buildKey pre (tagValue L f)) = [] then zeroValue t1
            else (setField L false t1 (zeroValue t1)
              (getEnv L env (buildKey pre (tagValue L f)))).1) →
          (Record.leaf v0 (parse L env false pre rest (zeroRecord rest)).record).get p =
            some (if pathBefore p ((i + 1) :: ps) = true
                ∧ getEnv L env (chainKey L pre chain) ≠ []
              then (setField L false t (zeroValue t) (getEnv L env (chainKey L pre chain))).1
              else zeroValue t) := by
        intro p chain t h v0 hv
        rcases p with _ | ⟨_ | j, qs⟩
        · simp [Shape.resolve] at h
        · cases qs with
          | cons _ _ => simp [Shape.resolve] at h
          | nil =>
            simp [Shape.resolve] at h
            obtain ⟨rfl, rfl⟩ := h
            rw [hv]
            simp only [Record.get, chainKey, List.foldl_cons, List.foldl_nil,
              pathBefore_zero_succ, true_and]
            by_cases hg : getEnv L env (buildKey pre (tagValue L f)) = [] <;> simp [hg]
        · simp only [Shape.resolve] at h
          simp only [Record.get, pathBefore_succ]
          exact hrest.2 (j :: qs) chain t h
      by_cases hv : getEnv L env (buildKey pre (tagValue L f)) = []
      · rw [if_pos hv]
        exact ⟨hrest.1, fun p chain t h => hget p chain t h _ (by simp [hv])⟩
      · rw [if_neg hv, if_pos (hhead hv)]
        exact ⟨hrest.1, fun p chain t h => hget p chain t h _ (by simp [hv])⟩
  | nested f fields rest ihf ihr =>
    intro pre p0 chain0 t0 e hexp h0 hv0 he hbefore
    simp only [Shape.all, Bool.and_eq_true] at hexp
    rw [zeroRecord, parse_nested]
    simp only [hexp.1.1, Bool.not_true, Bool.false_and, Bool.or_self]
    rcases p0 with _ | ⟨_ | i, ps⟩
    · simp [Shape.resolve] at h0
    · simp only [Shape.resolve, Option.map_eq_some'] at h0
      obtain ⟨⟨d0, s0⟩, hd0, he0⟩ := h0
      simp at he0
      obtain ⟨rfl, rfl⟩ := he0
      have hin := ihf (buildKey pre (tagValue L f)) ps d0 _ e hexp.1.2 hd0
        (by simpa [chainKey] using hv0) (by simpa [chainKey] using he)
        (fun p chain t h hb => by
          have := hbefore (0 :: p) (f :: chain) t (by simp [Shape.resolve, h])
            (by rw [pathBefore_zero_zero]; exact hb)
          simpa [chainKey] using this)
      have hne : (parse L env false (buildKey pre (tagValue L f)) fields
          (zeroRecord fields)).exit ≠ .returned none := by
        rw [hin.1]; simp
      rw [if_neg hne]
      refine ⟨hin.1, ?_⟩
      intro p chain t h
      rcases p with _ | ⟨_ | j, qs⟩
      · simp [Shape.resolve] at h
      · simp only [Shape.resolve, Option.map_eq_some'] at h
        obtain ⟨⟨ch, t1⟩, h1, h2⟩ := h
        simp at h2
        obtain ⟨rfl, rfl⟩ := h2
        simpa [Record.get, chainKey, pathBefore_zero_zero] using hin.2 qs ch _ h1
      · simp only [Shape.resolve] at h
        simp [Record.get, pathBefore_succ_zero, zeroRecord_get rest (j :: qs) chain t h]
    · simp only [Shape.resolve] at h0
      have hrest := ihr pre (i :: ps) chain0 t0 e hexp.2 h0 hv0 he (fun p chain t h hb => by
        rcases p with _ | ⟨j, qs⟩
        · cases rest <;> simp [Shape.resolve] at h
        · exact hbefore ((j + 1) :: qs) chain t (by simpa [Shape.resolve] using h)
            (by rw [pathBefore_succ]; exact hb))
      have hin := parse_ok L env fields (buildKey pre (tagValue L f)) hexp.1.2
        (fun p chain t h => by
          have := hbefore (0 :: p) (f :: chain) t (by simp [Shape.resolve, h])
            (pathBefore_zero_succ _ _ _)
          simpa [chainKey] using this)
      rw [if_pos hin.1]
      refine ⟨hrest.1, ?_⟩
      intro p chain t h
      rcases p with _ | ⟨_ | j, qs⟩
      · simp [Shape.resolve] at h
      · simp only [Shape.resolve, Option.map_eq_some'] at h
        obtain ⟨⟨ch, t1⟩, h1, h2⟩ := h
        simp at h2
        obtain ⟨rfl, rfl⟩ := h2
        have := hin.2 qs ch _ h1
        simp only [Record.get, this, chainKey, List.foldl_cons, pathBefore_zero_succ, true_and]
        by_cases hg : getEnv L env
            (List.foldl (fun p f => buildKey p (tagValue L f)) (buildKey pre (tagValue L f)) ch)
            = [] <;> simp [hg]
      · simp only [Shape.resolve] at h
        simp only [Record.get, pathBefore_succ]
        exact hrest.2 (j :: qs) chain t h

/-- The first refused leaf of a record type with exported fields only decides what `Load`
returns: its error, with a record where the leaves before it are bound and the others
hold their zero values. -/
theorem Load_first_error (L : Lib) (env : Env) (T : Shape) (p0 : List Nat)
    (chain0 : List FieldInfo) (t0 : LeafType) (e : GoError)
    (hexp : T.all (isExported L) = true) (h0 : T.resolve p0 = some (chain0, t0))
    (hv0 : getEnv L env (chainKey L [] chain0) ≠ [])
    (he : (setField L false t0 (zeroValue t0) (getEnv L env (chainKey L [] chain0))).2
      = .returned (some e))
    (hbefore : ∀ p chain t, T.resolve p = some (chain, t) → pathBefore p p0 = true →
      getEnv L env (chainKey L [] chain) ≠ [] →
      (setField L false t (zeroValue t) (getEnv L env (chainKey L [] chain))).2
        = .returned none) :
    ∃ r, (Load L env (.record T)).result = .returned (some r) (some e) ∧
      ∀ p chain t, T.resolve p = some (chain, t) →
        r.get p =
          some (if pathBefore p p0 = true ∧ getEnv L env (chainKey L [] chain) ≠ []
            then (setField L false t (zeroValue t) (getEnv L env (chainKey L [] chain))).1
            else zeroValue t) := by
  have h := parse_first_error L env T [] p0 chain0 t0 e hexp h0 hv0 he hbefore
  refine ⟨(parse L env false [] T (zeroRecord T)).record, ?_, h.2⟩
  rw [Load_record L env T (some e) h.1]

/-- C17. With an unexported leaf before the leaf that fails to coerce, `Load` does not
return the error of the failing leaf: for `{name string; Level int}` with `NAME=x` and
`LEVEL=bad`, the value of `Level` is refused by `setField` with a syntax error, but the
walk panics at `name` before it reaches `Level`. -/
theorem C17_panic_before_first_error :
    (setField asciiLib false (.basic .Int) (zeroValue (.basic .Int)) "bad".toList).2
        = .returned (some (.numError "ParseInt" "bad".toList .ErrSyntax)) ∧
      Load asciiLib (envOf [("NAME", "x"), ("LEVEL", "bad")]) (.record mixedConfig)
        = ⟨["NAME".toList],
          .panicked
            "reflect: reflect.Value.SetString using value obtained using unexported field"⟩ := by
  decide

/-- With the field exported, `{Name string; Level int}` under `NAME=x` and `LEVEL=bad`
gives the error of `Level` and a record where `Name` is bound and `Level` is zero. -/
theorem Load_first_error_example :
    (Load asciiLib (envOf [("NAME", "x"), ("LEVEL", "bad")])
        (.record (.leaf (fld "Name" "") (.basic .String) <|
          .leaf (fld "Level" "") (.basic .Int) .done))).result
      = .returned (some (.leaf (.scalar (.str "x".toList)) <| .leaf (.scalar (.int 0)) .done))
        (some (.numError "ParseInt" "bad".toList .ErrSyntax)) := by
  decide

theorem parse_congr (L : Lib) (env1 env2 : Env) : ∀ (s : Shape) (sticky : Bool) (pre : Str)
    (r : Record),
    (∀ ch ∈ s.leafChains, osGetenv env1 (ToUpper L (chainKey L pre ch))
      = osGetenv env2 (ToUpper L (chainKey L pre ch))) →
    parse L env1 sticky pre s r = parse L env2 sticky pre s r := by
  intro s
  induction s with
  | done => intro sticky pre r _; simp [parse]
  | leaf f t0 rest ih =>
    intro sticky pre r h
    cases r with
    | done => simp [parse]
    | nested _ _ => simp [parse]
    | leaf old r =>
      have hrest := ih sticky pre r (fun ch hch => h ch (by simp [Shape.leafChains, hch]))
      have hhead := h [f] (by simp [Shape.leafChains])
      simp only [chainKey, List.foldl_cons, List.foldl_nil] at hhead
      rw [parse_leaf, parse_leaf]
      simp only [getEnv, hhead, hrest]
  | nested f fields rest ihf ihr =>
    intro sticky pre r h
    cases r with
    | done => simp [parse]
    | leaf _ _ => simp [parse]
    | nested sub r =>
      have hrest := ihr sticky pre r (fun ch hch => h ch (by simp [Shape.leafChains, hch]))
      have hin := ihf (sticky || (!isExported L f && !f.Anonymous))
        (buildKey pre (tagValue L f)) sub (fun ch hch => by
          have := h (f :: ch) (by simp [Shape.leafChains, hch])
          simpa [chainKey] using this)
      rw [parse_nested, parse_nested]
      simp only [hin, hrest]

/-- C18. When two lookups give the same value at the upper-cased key of every leaf of a
record type, `Load` ends the same way under both, with the same record and the same
error; and every name `Load` passes to `os.Getenv` is the key of a leaf, so the key of a
nested record itself is never looked up. -/
theorem C18_only_leaf_keys_matter (L : Lib) (env1 env2 : Env) (T : Shape)
    (h : ∀ ch ∈ T.leafChains, osGetenv env1 (ToUpper L (chainKey L [] ch))
      = osGetenv env2 (ToUpper L (chainKey L [] ch))) :
    Load L env1 (.record T) = Load L env2 (.record T) ∧
      ∀ k ∈ (Load L env1 (.record T)).queried,
        ∃ ch ∈ T.leafChains, k = ToUpper L (chainKey L [] ch) := by
  constructor
  · simp only [Load, parse_congr L env1 env2 T false [] (zeroRecord T) h]
  · intro k hk
    have hload : (Load L env1 (.record T)).queried
        = (parse L env1 false [] T (zeroRecord T)).queried := by
      simp only [Load]
      split <;> rfl
    rw [hload] at hk
    have hsub := (parse_queried L env1 T false []).1.subset hk
    obtain ⟨ch, hch, rfl⟩ := List.mem_map.mp hsub
    exact ⟨ch, hch, rfl⟩

theorem C18_only_leaf_keys_matter_witness :
    (∀ ch ∈ dbConfig.leafChains,
      osGetenv (envOf [("DB__HOST", "h"), ("DB", "x")])
          (ToUpper asciiLib (chainKey asciiLib [] ch))
        = osGetenv (envOf [("DB__HOST", "h"), ("DATABASE", "y")])
          (ToUpper asciiLib (chainKey asciiLib [] ch))) ∧
      (Load asciiLib (envOf [("DB__HOST", "h"), ("DB", "x")]) (.record dbConfig)
          = Load asciiLib (envOf [("DB__HOST", "h"), ("DATABASE", "y")]) (.record dbConfig) ∧
        ∀ k ∈ (Load asciiLib (envOf [("DB__HOST", "h"), ("DB", "x")])
            (.record dbConfig)).queried,
          ∃ ch ∈ dbConfig.leafChains, k = ToUpper asciiLib (chainKey asciiLib [] ch)) :=
  ⟨by decide,
    C18_only_leaf_keys_matter asciiLib (envOf [("DB__HOST", "h"), ("DB", "x")])
      (envOf [("DB__HOST", "h"), ("DATABASE", "y")]) dbConfig (by decide)⟩

/-! ## The shape of derived keys and their uniqueness -/

theorem lowerOrDigit_ne_underscore {c : Char} (h : isLowerOrDigit c = true) : c ≠ '_' := by
  intro hc
  subst hc
  revert h
  decide

theorem normalizeKey_eq_snakeFrom (L : Lib) (s : Str) (hs : ∀ c ∈ s, isAlnum c = true) :
    normalizeKey L s = snakeFrom L none s := by
  have h1 := snake_main L s.length s none (Nat.le_refl _) hs (fun q hq => by cases hq)
    (fun q hq => by cases hq)
  have h2 := replaceAll_allCap (replaceAll matchFirstCap 0 s) none (by simp)
  simp only [normalizeKey, h2, h1]

theorem cleanFrom_snakeFrom (L : Lib) : ∀ (s : Str) (prev : Option Char),
    (∀ c ∈ s, isAlnum c = true) → (prev.isSome = true ∨ s ≠ []) →
    cleanFrom (!prev.isSome) (snakeFrom L prev s) = true
  | [], prev, _, h => by
    rcases h with h | h
    · simp [snakeFrom, cleanFrom, h]
    · exact absurd rfl h
  | c :: rest, prev, hs, _ => by
    have hx := lowerOrDigit_ne_underscore (toLowerRune_alnum L c (hs c (by simp)))
    have ih := cleanFrom_snakeFrom L rest (some c) (fun x hx => hs x (by simp [hx]))
      (Or.inl rfl)
    simp only [Option.isSome_some, Bool.not_true] at ih
    rw [snakeFrom_cons]
    split
    · next hcond =>
      have hp : prev.isSome = true := by
        simp only [Bool.and_eq_true] at hcond
        exact hcond.1.1
      simp [cleanFrom, hp, hx, ih]
    · simp [cleanFrom, hx, ih]

theorem cleanFrom_no_double : ∀ (a : Str) (b : Bool) (c : Str),
    cleanFrom b (a ++ '_' :: '_' :: c) = false
  | [], b, c => by simp [cleanFrom]
  | x :: a, b, c => by
    simp only [List.cons_append, cleanFrom]
    split <;> simp [cleanFrom_no_double a]

theorem cleanFrom_not_infix (b : Bool) (s : Str) (h : cleanFrom b s = true) :
    ¬ ("__".toList <:+: s) := by
  rintro ⟨a, c, rfl⟩
  have := cleanFrom_no_double a b c
  have hs : a ++ "__".toList ++ c = a ++ '_' :: '_' :: c := by simp
  rw [hs, this] at h
  cases h

theorem cleanFrom_getLast : ∀ (s : Str) (b : Bool), cleanFrom b s = true →
    s.getLast? ≠ some '_'
  | [], _, _ => by simp
  | [x], b, h => by
    intro hx
    simp at hx
    subst hx
    simp [cleanFrom] at h
  | x :: y :: s, b, h => by
    rw [List.getLast?_cons_cons]
    simp only [cleanFrom] at h
    split at h
    · simp only [Bool.and_eq_true] at h
      exact cleanFrom_getLast (y :: s) true (by simpa [cleanFrom] using h.2)
    · exact cleanFrom_getLast (y :: s) false (by simpa [cleanFrom] using h)

theorem cleanFrom_head (s : Str) (h : cleanFrom true s = true) : s.head? ≠ some '_' := by
  cases s with
  | nil => simp
  | cons x s =>
    intro hx
    simp at hx
    subst hx
    simp [cleanFrom] at h

theorem ToUpper_append (L : Lib) (a b : Str) : ToUpper L (a ++ b) = ToUpper L a ++ ToUpper L b := by
  simp [ToUpper]

theorem ToUpper_sep (L : Lib) : ToUpper L "__".toList = ['_', '_'] := by
  simp [ToUpper, toUpperRune, isLowerAZ]

theorem ToUpper_eq_nil (L : Lib) (s : Str) : ToUpper L s = [] ↔ s = [] := by
  simp [ToUpper]

theorem upperKey_of_pre (L : Lib) : ∀ (chain : List FieldInfo) (pre : Str), pre ≠ [] →
    ToUpper L (chainKey L pre chain) = ToUpper L pre ++ relKey L chain
  | [], pre, _ => by simp [chainKey, relKey]
  | f :: chain, pre, h => by
    have hb : buildKey pre (tagValue L f) = pre ++ "__".toList ++ tagValue L f := by
      simp [buildKey, h]
    have ih := upperKey_of_pre L chain (pre ++ "__".toList ++ tagValue L f) (by simp [h])
    simp only [chainKey, List.foldl_cons, hb] at ih ⊢
    rw [ih, ToUpper_append, ToUpper_append, ToUpper_sep]
    simp [relKey, upperSeg]

theorem upperKey_root (L : Lib) (f : FieldInfo) (chain : List FieldInfo)
    (h : tagValue L f ≠ []) :
    '_' :: '_' :: ToUpper L (chainKey L [] (f :: chain)) = relKey L (f :: chain) := by
  have := upperKey_of_pre L chain (tagValue L f) h
  simp only [chainKey, List.foldl_cons, buildKey, if_true] at this ⊢
  rw [this]
  simp [relKey, upperSeg]

theorem cleanFrom_underscore_tail (x w : Str) (b : Bool)
    (hw : w = [] ∨ ∃ w', w = '_' :: w') : cleanFrom b (x ++ '_' :: w) = false := by
  rcases hw with rfl | ⟨w', rfl⟩
  · cases h : cleanFrom b (x ++ ['_']) with
    | false => rfl
    | true =>
      have := cleanFrom_getLast _ _ h
      simp at this
  · exact cleanFrom_no_double x b w'

theorem relKey_sepTail (L : Lib) (chain : List FieldInfo) : sepTail (relKey L chain) := by
  cases chain with
  | nil => exact Or.inl rfl
  | cons f r => exact Or.inr ⟨_, rfl⟩

theorem seg_eq_of_extends (x y a b : Str) (hy : cleanSeg y = true) (ha : sepTail a)
    (hz : ∃ z, y = x ++ z ∧ a = z ++ b) : x = y := by
  obtain ⟨z, rfl, rfl⟩ := hz
  cases z with
  | nil => simp
  | cons z0 zs =>
    exfalso
    rcases ha with ha | ⟨t, ha⟩
    · simp at ha
    · simp only [List.cons_append, List.cons.injEq] at ha
      obtain ⟨rfl, hrest⟩ := ha
      have hzs : zs = [] ∨ ∃ w', zs = '_' :: w' := by
        cases zs with
        | nil => exact Or.inl rfl
        | cons z1 zs' =>
          simp only [List.cons_append, List.cons.injEq] at hrest
          exact Or.inr ⟨zs', by rw [hrest.1]⟩
      have := cleanFrom_underscore_tail x zs true hzs
      simp [cleanSeg, this] at hy

theorem seg_eq_of_key_eq (x y a b : Str) (hx : cleanSeg x = true) (hy : cleanSeg y = true)
    (ha : sepTail a) (hb : sepTail b) (h : x ++ a = y ++ b) : x = y := by
  rcases List.append_eq_append_iff.mp h with ⟨z, h1, h2⟩ | ⟨z, h1, h2⟩
  · exact seg_eq_of_extends x y a b hy ha ⟨z, h1, h2⟩
  · exact (seg_eq_of_extends y x b a hx hb ⟨z, h1, h2⟩).symm

theorem resolve_head_topSegs (L : Lib) : ∀ (s : Shape) (path : List Nat)
    (chain : List FieldInfo) (t : LeafType), s.resolve path = some (chain, t) →
    ∃ g more, chain = g :: more ∧ upperSeg L g ∈ s.topSegs L := by
  intro s
  induction s with
  | done => intro path chain t h; simp [Shape.resolve] at h
  | leaf f t0 rest ih =>
    intro path chain t h
    rcases path with _ | ⟨_ | i, ps⟩
    · simp [Shape.resolve] at h
    · cases ps with
      | nil =>
        simp [Shape.resolve] at h
        exact ⟨f, [], h.1.symm, by simp [Shape.topSegs]⟩
      | cons _ _ => simp [Shape.resolve] at h
    · simp only [Shape.resolve] at h
      obtain ⟨g, more, hc, hg⟩ := ih (i :: ps) chain t h
      exact ⟨g, more, hc, by simp [Shape.topSegs, hg]⟩
  | nested f fields rest _ ihr =>
    intro path chain t h
    rcases path with _ | ⟨_ | i, ps⟩
    · simp [Shape.resolve] at h
    · simp only [Shape.resolve, Option.map_eq_some'] at h
      obtain ⟨⟨ch, t1⟩, _, h2⟩ := h
      simp at h2
      exact ⟨f, ch, h2.1.symm, by simp [Shape.topSegs]⟩
    · simp only [Shape.resolve] at h
      obtain ⟨g, more, hc, hg⟩ := ihr (i :: ps) chain t h
      exact ⟨g, more, hc, by simp [Shape.topSegs, hg]⟩

theorem wellKeyed_topSegs (L : Lib) : ∀ (s : Shape), s.wellKeyed L = true →
    ∀ u ∈ s.topSegs L, cleanSeg u = true := by
  intro s
  induction s with
  | done => intro _ u hu; simp [Shape.topSegs] at hu
  | leaf f t rest ih =>
    intro hw u hu
    simp only [Shape.wellKeyed, Bool.and_eq_true] at hw
    simp only [Shape.topSegs, List.mem_cons] at hu
    rcases hu with rfl | hu
    · exact hw.1.1
    · exact ih hw.2 u hu
  | nested f fields rest _ ihr =>
    intro hw u hu
    simp only [Shape.wellKeyed, Bool.and_eq_true] at hw
    simp only [Shape.topSegs, List.mem_cons] at hu
    rcases hu with rfl | hu
    · exact hw.1.1.1
    · exact ihr hw.2 u hu

/-- A leaf under the first field and a leaf under a later field have different keys. -/
theorem head_vs_rest (L : Lib) (f : FieldInfo) (d1 : List FieldInfo) (rest : Shape)
    (hclean : cleanSeg (upperSeg L f) = true)
    (hnot : (rest.topSegs L).contains (upperSeg L f) = false)
    (hrest : rest.wellKeyed L = true) (path : List Nat) (c2 : List FieldInfo) (t2 : LeafType)
    (h2 : rest.resolve path = some (c2, t2)) : relKey L (f :: d1) ≠ relKey L c2 := by
  intro heq
  obtain ⟨g, more, rfl, hg⟩ := resolve_head_topSegs L rest path c2 t2 h2
  simp only [relKey, List.cons.injEq, true_and] at heq
  have := seg_eq_of_key_eq _ _ _ _ hclean (wellKeyed_topSegs L rest hrest _ hg)
    (relKey_sepTail L d1) (relKey_sepTail L more) heq
  rw [← this] at hg
  simp only [List.contains_eq_any_beq, List.any_eq_false, beq_iff_eq] at hnot
  exact hnot _ hg rfl

theorem relKey_injective (L : Lib) : ∀ (s : Shape), s.wellKeyed L = true →
    ∀ (p1 p2 : List Nat) (c1 c2 : List FieldInfo) (t1 t2 : LeafType),
    s.resolve p1 = some (c1, t1) → s.resolve p2 = some (c2, t2) →
    relKey L c1 = relKey L c2 → p1 = p2 := by
  intro s
  induction s with
  | done => intro _ p1 p2 c1 c2 t1 t2 h1; simp [Shape.resolve] at h1
  | leaf f t0 rest ih =>
    intro hw p1 p2 c1 c2 t1 t2 h1 h2 heq
    simp only [Shape.wellKeyed, Bool.and_eq_true, Bool.not_eq_true'] at hw
    obtain ⟨⟨hclean, hnot⟩, hrest⟩ := hw
    rcases p1 with _ | ⟨_ | i, ps⟩
    · simp [Shape.resolve] at h1
    · cases ps with
      | cons _ _ => simp [Shape.resolve] at h1
      | nil =>
        simp [Shape.resolve] at h1
        obtain ⟨rfl, -⟩ := h1
        rcases p2 with _ | ⟨_ | j, qs⟩
        · simp [Shape.resolve] at h2
        · cases qs with
          | cons _ _ => simp [Shape.resolve] at h2
          | nil => rfl
        · simp only [Shape.resolve] at h2
          exact absurd heq (head_vs_rest L f [] rest hclean hnot hrest _ c2 t2 h2)
    · simp only [Shape.resolve] at h1
      rcases p2 with _ | ⟨_ | j, qs⟩
      · simp [Shape.resolve] at h2
      · cases qs with
        | cons _ _ => simp [Shape.resolve] at h2
        | nil =>
          simp [Shape.resolve] at h2
          obtain ⟨rfl, -⟩ := h2
          exact absurd heq.symm (head_vs_rest L f [] rest hclean hnot hrest _ c1 t1 h1)
      · simp only [Shape.resolve] at h2
        have := ih hrest (i :: ps) (j :: qs) c1 c2 t1 t2 h1 h2 heq
        simp only [List.cons.injEq] at this ⊢
        exact ⟨by omega, this.2⟩
  | nested f fields rest ihf ihr =>
    intro hw p1 p2 c1 c2 t1 t2 h1 h2 heq
    simp only [Shape.wellKeyed, Bool.and_eq_true, Bool.not_eq_true'] at hw
    obtain ⟨⟨⟨hclean, hnot⟩, hfields⟩, hrest⟩ := hw
    rcases p1 with _ | ⟨_ | i, ps⟩
    · simp [Shape.resolve] at h1
    · simp only [Shape.resolve, Option.map_eq_some'] at h1
      obtain ⟨⟨d1, s1⟩, hd1, he1⟩ := h1
      simp at he1
      obtain ⟨rfl, rfl⟩ := he1
      rcases p2 with _ | ⟨_ | j, qs⟩
      · simp [Shape.resolve] at h2
      · simp only [Shape.resolve, Option.map_eq_some'] at h2
        obtain ⟨⟨d2, s2⟩, hd2, he2⟩ := h2
        simp at he2
        obtain ⟨rfl, rfl⟩ := he2
        simp only [relKey, List.cons.injEq, true_and, List.append_cancel_left_eq] at heq
        rw [ihf hfields ps qs d1 d2 _ _ hd1 hd2 heq]
      · simp only [Shape.resolve] at h2
        exact absurd heq (head_vs_rest L f d1 rest hclean hnot hrest _ c2 t2 h2)
    · simp only [Shape.resolve] at h1
      rcases p2 with _ | ⟨_ | j, qs⟩
      · simp [Shape.resolve] at h2
      · simp only [Shape.resolve, Option.map_eq_some'] at h2
        obtain ⟨⟨d2, s2⟩, hd2, he2⟩ := h2
        simp at he2
        obtain ⟨rfl, rfl⟩ := he2
        exact absurd heq.symm (head_vs_rest L f d2 rest hclean hnot hrest _ c1 t1 h1)
      · simp only [Shape.resolve] at h2
        have := ihr hrest (i :: ps) (j :: qs) c1 c2 t1 t2 h1 h2 heq
        simp only [List.cons.injEq] at this ⊢
        exact ⟨by omega, this.2⟩

/-- C19, as stated, fails: two distinct leaves can have the same lookup key, without
overrides (`Host` and `HOST` both give `HOST`) and with them (two fields tagged `x`). -/
theorem C19_keys_collide :
    caseConfig.resolve [0] = some ([fld "Host" ""], .basic .String) ∧
      caseConfig.resolve [1] = some ([fld "HOST" ""], .basic .String) ∧
      ToUpper asciiLib (chainKey asciiLib [] [fld "Host" ""]) = "HOST".toList ∧
      ToUpper asciiLib (chainKey asciiLib [] [fld "HOST" ""]) = "HOST".toList ∧
      sameTagConfig.resolve [0] = some ([fld "A" "x"], .basic .String) ∧
      sameTagConfig.resolve [1] = some ([fld "B" "x"], .basic .String) ∧
      ToUpper asciiLib (chainKey asciiLib [] [fld "A" "x"])
        = ToUpper asciiLib (chainKey asciiLib [] [fld "B" "x"]) := by
  decide

/-- C19, amended. In a record type where, at every level, the upper-cased segments of the
fields are pairwise distinct, non-empty, free of two adjacent underscores and neither
start nor end with an underscore, two distinct leaves never have the same lookup key: the
key identifies the location of the leaf. -/
theorem C19_keys_unique_when_well_keyed (L : Lib) (T : Shape) (hw : T.wellKeyed L = true)
    (p1 p2 : List Nat) (c1 c2 : List FieldInfo) (t1 t2 : LeafType)
    (h1 : T.resolve p1 = some (c1, t1)) (h2 : T.resolve p2 = some (c2, t2))
    (hne : p1 ≠ p2) :
    ToUpper L (chainKey L [] c1) ≠ ToUpper L (chainKey L [] c2) := by
  intro hkey
  obtain ⟨g1, m1, rfl, hg1⟩ := resolve_head_topSegs L T p1 c1 t1 h1
  obtain ⟨g2, m2, rfl, hg2⟩ := resolve_head_topSegs L T p2 c2 t2 h2
  have hseg : ∀ g, upperSeg L g ∈ T.topSegs L → tagValue L g ≠ [] := by
    intro g hg hnil
    have hc := wellKeyed_topSegs L T hw _ hg
    simp [cleanSeg, upperSeg, ToUpper, hnil] at hc
  have e1 := upperKey_root L g1 m1 (hseg g1 hg1)
  have e2 := upperKey_root L g2 m2 (hseg g2 hg2)
  rw [hkey, e2] at e1
  exact hne (relKey_injective L T hw p1 p2 _ _ t1 t2 h1 h2 e1.symm)

theorem C19_keys_unique_when_well_keyed_witness :
    smallConfig.wellKeyed asciiLib = true ∧
      smallConfig.resolve [0, 0] = some ([fld "Database" "", fld "Host" ""], .basic .String) ∧
      smallConfig.resolve [1] = some ([fld "Port" ""], .basic .Uint) ∧
      ([0, 0] : List Nat) ≠ [1] ∧
      ToUpper asciiLib (chainKey asciiLib [] [fld "Database" "", fld "Host" ""])
        ≠ ToUpper asciiLib (chainKey asciiLib [] [fld "Port" ""]) :=
  ⟨by decide, by decide, by decide, by decide,
    C19_keys_unique_when_well_keyed asciiLib smallConfig (by decide) [0, 0] [1]
      [fld "Database" "", fld "Host" ""] [fld "Port" ""] (.basic .String) (.basic .Uint)
      (by decide) (by decide) (by decide)⟩

/-- C20. For every non-empty name over `[A-Za-z0-9]`, the derived key is non-empty, has
only runes in `[a-z0-9_]`, neither starts nor ends with an underscore and has no two
adjacent underscores, so it does not contain the separator `__`; and the key `buildKey`
makes from it, which is the prefix of the next level, is never empty. -/
theorem C20_derived_segment_shape (L : Lib) (s : Str) (hne : s ≠ [])
    (hs : ∀ c ∈ s, isAlnum c = true) :
    normalizeKey L s ≠ [] ∧
      (∀ c ∈ normalizeKey L s, isLowerOrDigit c = true ∨ c = '_') ∧
      (normalizeKey L s).head? ≠ some '_' ∧
      (normalizeKey L s).getLast? ≠ some '_' ∧
      ¬ ("__".toList <:+: normalizeKey L s) ∧
      ∀ pre : Str, buildKey pre (normalizeKey L s) ≠ [] := by
  have hclean : cleanFrom true (normalizeKey L s) = true := by
    rw [normalizeKey_eq_snakeFrom L s hs]
    exact cleanFrom_snakeFrom L s none hs (Or.inr hne)
  have hnn := normalizeKey_ne_nil L s hne
  refine ⟨hnn, normalizeKey_runes L s hs, cleanFrom_head _ hclean, cleanFrom_getLast _ _ hclean,
    cleanFrom_not_infix _ _ hclean, ?_⟩
  intro pre
  unfold buildKey
  split
  · exact hnn
  · simp [hnn]

theorem C20_derived_segment_shape_witness :
    "HTTPServer2".toList ≠ [] ∧ (∀ c ∈ "HTTPServer2".toList, isAlnum c = true) ∧
      (normalizeKey asciiLib "HTTPServer2".toList ≠ [] ∧
      (∀ c ∈ normalizeKey asciiLib "HTTPServer2".toList, isLowerOrDigit c = true ∨ c = '_') ∧
      (normalizeKey asciiLib "HTTPServer2".toList).head? ≠ some '_' ∧
      (normalizeKey asciiLib "HTTPServer2".toList).getLast? ≠ some '_' ∧
      ¬ ("__".toList <:+: normalizeKey asciiLib "HTTPServer2".toList) ∧
      ∀ pre : Str, buildKey pre (normalizeKey asciiLib "HTTPServer2".toList) ≠ []) :=
  ⟨by decide, by decide,
    C20_derived_segment_shape asciiLib "HTTPServer2".toList (by decide) (by decide)⟩

end Neoenv
